import Mathlib

/-!
# hjson `Writer`: a shallow embedding of `hjson/Writer.h`

The compact JSON serialiser of the library is a `Handler`: it receives the
events `Null`, `Bool`, `Int32`, `Int64`, `Double`, `String`, `Key`,
`StartObject`, `EndObject`, `StartArray`, `EndArray` and appends text to a
byte sink.  The embedding keeps the sink as the list of bytes written so far,
the context stack as a list of levels (innermost level first) and models a
failed `assert` as `none`.

Conventions of the embedding:

* a `char` is a `Byte`, a value below 256; `std::string_view` is `List Byte`;
* `int32_t` / `int64_t` arguments are `Int`, unsigned machine words are `Nat`
  reduced modulo `2 ^ 32` or `2 ^ 64` wherever the C++ arithmetic wraps;
* a local `char buf[N]` is a list of `N` cells, each `none` (never written)
  or `some b`; a write outside the list and a read of a cell never written
  are failures (`none`);
* `Level::valueCount` is an `int` in the source and a `Nat` here: the
  embedding describes containers with fewer than `2 ^ 31` entries.
-/

namespace json

/-- A `char` seen as the byte it stores. -/
abbrev Byte := Fin 256

/-- The bytes of an ASCII string literal. -/
def str (s : String) : List Byte := s.toList.map fun c => Fin.ofNat c.toNat

/-! ## Local character buffers -/

/-- A `char buf[N]`: cell `i` is `none` until it is written. -/
abbrev Buf := List (Option Byte)

/-- An uninitialised `char buf[n]`. -/
def Buf.fresh (n : Nat) : Buf := List.replicate n none

/-- The assignment `buf[i] = c`; out of bounds is a failure. -/
def Buf.write (buf : Buf) (i : Nat) (c : Byte) : Option Buf :=
  if i < buf.length then some (buf.set i (some c)) else none

/-- The contents of a run of cells; `none` when one of them was never written. -/
def Buf.read : Buf → Option (List Byte)
  | [] => some []
  | none :: _ => none
  | some b :: rest => (Buf.read rest).map fun bs => b :: bs

/-- The bytes of `std::string_view(buf, cnt)`: the first `cnt` cells, all of
which must lie inside the buffer and have been written. -/
def Buf.view (buf : Buf) (cnt : Nat) : Option (List Byte) :=
  if cnt ≤ buf.length then Buf.read (buf.take cnt) else none

/-! ## `countDigits` -/

/-- Scan of the bits `i - 1, ..., 0` of `x` from the top: the number of zero
bits met before the first one bit. -/
def clzAux (x : Nat) : Nat → Nat
  | 0 => 0
  | i + 1 => if x.testBit i then 0 else clzAux x i + 1

/-- The builtins `__builtin_clz` (`w = 32`) and `__builtin_clzll` (`w = 64`):
the number of leading zero bits of the `w`-bit word `x`. -/
def clz (w x : Nat) : Nat := clzAux x w

/-- The table `powers_of_10` of `countDigits(uint32_t)`. -/
def powers_of_10_32 : List Nat :=
  [0, 10, 100, 1000, 10000, 100000, 1000000, 10000000, 100000000, 1000000000]

/-- The table `powers_of_10` of `countDigits(uint64_t)`. -/
def powers_of_10_64 : List Nat :=
  [0, 10, 100, 1000, 10000, 100000, 1000000, 10000000, 100000000, 1000000000,
   10000000000, 100000000000, 1000000000000, 10000000000000, 100000000000000,
   1000000000000000, 10000000000000000, 100000000000000000,
   1000000000000000000, 10000000000000000000]

/-- The table index `t` of `countDigits(uint32_t)`. -/
def countDigitsIndex32 (n : Nat) : Nat :=
  (((32 - clz 32 (n ||| 1)) * 1233) >>> 12) % 2 ^ 32

/-- The table index `t` of `countDigits(uint64_t)`. -/
def countDigitsIndex64 (n : Nat) : Nat :=
  (((64 - clz 64 (n ||| 1)) * 1233) >>> 12) % 2 ^ 32

/-- The overload `countDigits(uint32_t n)`; `none` when the table is read out of bounds. -/
def countDigits32 (n : Nat) : Option Nat :=
  let t := countDigitsIndex32 n
  match powers_of_10_32[t]? with
  | none => none
  | some p => some ((t + 2 ^ 32 - (if n < p then 1 else 0) + 1) % 2 ^ 32)

/-- The overload `countDigits(uint64_t n)`; `none` when the table is read out of bounds. -/
def countDigits64 (n : Nat) : Option Nat :=
  let t := countDigitsIndex64 n
  match powers_of_10_64[t]? with
  | none => none
  | some p => some ((t + 2 ^ 32 - (if n < p then 1 else 0) + 1) % 2 ^ 32)

/-- The unsigned types at which the template `itoa_` is instantiated. -/
inductive UWord where
  | u32
  | u64
  deriving DecidableEq, Repr

/-- The number of bits of the word type. -/
def UWord.bits : UWord → Nat
  | .u32 => 32
  | .u64 => 64

/-- Overload resolution of `countDigits(val)` inside `itoa_<T>`. -/
def countDigits : UWord → Nat → Option Nat
  | .u32, n => countDigits32 n
  | .u64, n => countDigits64 n

/-! ## `itoa_` and `detail::itoa` -/

/-- The table `digits` of `itoa_`: the two-character renderings of `00` to `99`. -/
@[irreducible] def digits : List Byte :=
  str ("0001020304050607080910111213141516171819" ++
       "2021222324252627282930313233343536373839" ++
       "4041424344454647484950515253545556575859" ++
       "6061626364656667686970717273747576777879" ++
       "8081828384858687888990919293949596979899")

/-- The loop `while (val >= 100)` of `itoa_`, writing relative to `buf + off`.
`next` is an `unsigned`, so `next - 1` and `next -= 2` wrap modulo `2 ^ 32`.
The loop divides `val` by 100 in every round; `fuel` bounds the rounds.
The result is the final `val`, `next` and buffer. -/
def itoaLoop : Nat → Nat → Nat → Buf → Nat → Option (Nat × Nat × Buf)
  | 0, _, _, _, _ => none
  | fuel + 1, val, next, buf, off =>
    if 100 ≤ val then
      let i := ((val % 100) * 2) % 2 ^ 32
      match digits[i + 1]?, digits[i]? with
      | some hi, some lo =>
        match buf.write (off + next) hi with
        | none => none
        | some buf1 =>
          match buf1.write (off + (next + 2 ^ 32 - 1) % 2 ^ 32) lo with
          | none => none
          | some buf2 => itoaLoop fuel (val / 100) ((next + 2 ^ 32 - 2) % 2 ^ 32) buf2 off
      | _, _ => none
    else some (val, next, buf)

/-- The part of `itoa_` after the loop: the last one or two digits. -/
def itoaLast (val next : Nat) (buf : Buf) (off : Nat) : Option Buf :=
  if val < 10 then
    buf.write (off + next) (Fin.ofNat (48 + val))
  else
    let i := (val * 2) % 2 ^ 32
    match digits[i + 1]?, digits[i]? with
    | some hi, some lo =>
      match buf.write (off + next) hi with
      | none => none
      | some buf1 => buf1.write (off + (next + 2 ^ 32 - 1) % 2 ^ 32) lo
    | _, _ => none

/-- The template `itoa_<T>(val, buf)` called with the pointer `buf + off`;
the result is the buffer after the writes and the returned `count`. -/
def itoa_ (T : UWord) (val : Nat) (buf : Buf) (off : Nat) : Option (Buf × Nat) :=
  match countDigits T val with
  | none => none
  | some count =>
    let next := (count + 2 ^ 32 - 1) % 2 ^ 32
    match itoaLoop T.bits val next buf off with
    | none => none
    | some (val1, next1, buf1) =>
      match itoaLast val1 next1 buf1 off with
      | none => none
      | some buf2 => some (buf2, count)

/-- The two overloads `detail::itoa(int32_t, char*)` (`T = u32`) and
`detail::itoa(int64_t, char*)` (`T = u64`): `u` is `val` converted to the
unsigned type, negated as `~u + 1` when `val` is negative. -/
def itoa (T : UWord) (val : Int) (buf : Buf) : Option (Buf × Nat) :=
  let u := (val % 2 ^ T.bits).toNat
  if val < 0 then
    match buf.write 0 45 with
    | none => none
    | some buf1 =>
      let u1 := ((2 ^ T.bits - 1 - u) + 1) % 2 ^ T.bits
      match itoa_ T u1 buf1 1 with
      | none => none
      | some (buf2, n) => some (buf2, (1 + n) % 2 ^ 32)
  else
    match itoa_ T u buf 0 with
    | none => none
    | some (buf2, n) => some (buf2, (0 + n) % 2 ^ 32)

/-! ## The `Writer` -/

/-- Modelled from the spec: the type tags `TYPE_NULL`, ..., `TYPE_OBJECT` of
`hjson/Value.h`, a header that is not among the sources; `Writer::prefix`
receives one of them. -/
inductive ValueType where
  | TYPE_NULL
  | TYPE_BOOL
  | TYPE_INT32
  | TYPE_INT64
  | TYPE_DOUBLE
  | TYPE_STRING
  | TYPE_ARRAY
  | TYPE_OBJECT
  deriving DecidableEq, Repr

/-- The struct `Writer::Level`: one open container. -/
structure Level where
  inArray : Bool
  valueCount : Nat
  deriving DecidableEq, Repr

/-- The members of `Writer`: `stack_` with `stack_.back()` as the head of the
list, the bytes put to `os_` so far, and `seeValue_`. -/
structure Writer where
  stack_ : List Level
  os_ : List Byte
  seeValue_ : Bool
  deriving DecidableEq, Repr

/-- The constructor `Writer(os)` on an empty sink. -/
def Writer.fresh : Writer := ⟨[], [], false⟩

/-- The calls `os_.put(...)`: append to the sink. -/
def Writer.put (w : Writer) (bs : List Byte) : Writer := { w with os_ := w.os_ ++ bs }

/-- The method `Writer::prefix(type)`; `none` when one of its assertions fails. -/
def Writer.prefix_ (w : Writer) (type : ValueType) : Option Writer :=
  if w.seeValue_ && w.stack_.isEmpty then none
  else
    let w1 : Writer := { w with seeValue_ := true }
    match w1.stack_ with
    | [] => some w1
    | top :: rest =>
      if top.inArray then
        let w2 := if top.valueCount > 0 then w1.put [44] else w1
        some { w2 with stack_ := { top with valueCount := top.valueCount + 1 } :: rest }
      else if top.valueCount % 2 = 1 then
        let w2 := w1.put [58]
        some { w2 with stack_ := { top with valueCount := top.valueCount + 1 } :: rest }
      else if type ≠ ValueType.TYPE_STRING then none
      else
        let w2 := if top.valueCount > 0 then w1.put [44] else w1
        some { w2 with stack_ := { top with valueCount := top.valueCount + 1 } :: rest }

/-- The method `Writer::Null`. -/
def Writer.Null (w : Writer) : Option Writer :=
  (w.prefix_ .TYPE_NULL).map fun w1 => w1.put (str "null")

/-- The method `Writer::Bool`. -/
def Writer.Bool (w : Writer) (b : Bool) : Option Writer :=
  (w.prefix_ .TYPE_BOOL).map fun w1 => w1.put (if b then str "true" else str "false")

/-- The lines `char buf[11]; unsigned cnt = detail::itoa(i32, buf);` of
`Writer::Int32` and the `std::string_view(buf, cnt)` it hands to `os_.put`. -/
def int32Text (i32 : Int) : Option (List Byte) :=
  match itoa .u32 i32 (Buf.fresh 11) with
  | none => none
  | some (buf, cnt) => buf.view cnt

/-- The method `Writer::Int32`. -/
def Writer.Int32 (w : Writer) (i32 : Int) : Option Writer :=
  match w.prefix_ .TYPE_INT32 with
  | none => none
  | some w1 => (int32Text i32).map fun bs => w1.put bs

/-- The lines `char buf[20]; unsigned cnt = detail::itoa(i64, buf);` of
`Writer::Int64` and the `std::string_view(buf, cnt)` it hands to `os_.put`. -/
def int64Text (i64 : Int) : Option (List Byte) :=
  match itoa .u64 i64 (Buf.fresh 20) with
  | none => none
  | some (buf, cnt) => buf.view cnt

/-- The method `Writer::Int64`. -/
def Writer.Int64 (w : Writer) (i64 : Int) : Option Writer :=
  match w.prefix_ .TYPE_INT64 with
  | none => none
  | some w1 => (int64Text i64).map fun bs => w1.put bs

/-- What `Writer::Double` observes of its `double` argument: `std::isinf`
(with the sign of the infinity), `std::isnan`, and for every other value the
characters that `sprintf(buf, "%.17g", d)` stores. -/
inductive DoubleArg where
  | inf (negative : Bool)
  | nan
  | finite (g17 : List Byte)
  deriving DecidableEq, Repr

/-- The function `isdigit` of the C locale. -/
def isdigit (c : Byte) : Bool := 48 ≤ c.val && c.val ≤ 57

/-- The text left in the local `char buf[32]` by `Writer::Double`; `none` when
`assert(n > 0 && n < 32)` fails or when `strcat(buf, ".0")` would write its
terminating zero beyond the 32 bytes. -/
def doubleText : DoubleArg → Option (List Byte)
  | .inf _ => some (str "Infinity")
  | .nan => some (str "NaN")
  | .finite g17 =>
    let n := g17.length
    if 0 < n ∧ n < 32 then
      if g17.all isdigit then
        if n + 3 ≤ 32 then some (g17 ++ str ".0") else none
      else some g17
    else none

/-- The method `Writer::Double`. -/
def Writer.Double (w : Writer) (d : DoubleArg) : Option Writer :=
  match w.prefix_ .TYPE_DOUBLE with
  | none => none
  | some w1 => (doubleText d).map fun bs => w1.put bs

/-- The conversion `static_cast<unsigned>(c)` of a `char` (a signed type on
the platforms the library builds on): bytes from 0x80 sign-extend. -/
def charToUnsigned (c : Byte) : Nat :=
  if c.val < 128 then c.val else c.val + (2 ^ 32 - 256)

/-- A hexadecimal digit in upper case (`%X`). -/
def hexDigitUpper (d : Nat) : Byte :=
  if d < 10 then Fin.ofNat (48 + d) else Fin.ofNat (55 + d)

/-- The characters of `u` in base 16, most significant first (no padding). -/
def hexUpperAux : Nat → Nat → List Byte
  | 0, _ => []
  | fuel + 1, u => if u < 16 then [hexDigitUpper u]
      else hexUpperAux fuel (u / 16) ++ [hexDigitUpper (u % 16)]

/-- The conversion `%04X`: upper-case hexadecimal, zero-padded to four characters. -/
def format04X (u : Nat) : List Byte :=
  let ds := hexUpperAux 8 u
  List.replicate (4 - ds.length) 48 ++ ds

/-- The body of the loop of `Writer::String`: what is put for one `char c`.
`snprintf(buf, 7, ...)` keeps at most six characters. -/
def escapeChar (c : Byte) : List Byte :=
  let u := charToUnsigned c
  if u = 34 then str "\\\""
  else if u = 8 then str "\\b"
  else if u = 12 then str "\\f"
  else if u = 10 then str "\\n"
  else if u = 13 then str "\\r"
  else if u = 9 then str "\\t"
  else if u = 92 then str "\\\\"
  else if u < 32 then (str "\\u" ++ format04X u).take 6
  else [c]

/-- The method `Writer::String`. -/
def Writer.String (w : Writer) (s : List Byte) : Option Writer :=
  (w.prefix_ .TYPE_STRING).map fun w1 =>
    ((s.foldl (fun acc c => acc.put (escapeChar c)) (w1.put [34])).put [34])

/-- The method `Writer::StartObject`. -/
def Writer.StartObject (w : Writer) : Option Writer :=
  (w.prefix_ .TYPE_OBJECT).map fun w1 =>
    ({ w1 with stack_ := ⟨false, 0⟩ :: w1.stack_ } : Writer).put [123]

/-- The method `Writer::Key`. -/
def Writer.Key (w : Writer) (s : List Byte) : Option Writer :=
  (w.prefix_ .TYPE_STRING).map fun w1 => ((w1.put [34]).put s).put [34]

/-- The method `Writer::EndObject`. -/
def Writer.EndObject (w : Writer) : Option Writer :=
  match w.stack_ with
  | [] => none
  | top :: rest =>
    if top.inArray then none
    else some (({ w with stack_ := rest } : Writer).put [125])

/-- The method `Writer::StartArray`. -/
def Writer.StartArray (w : Writer) : Option Writer :=
  (w.prefix_ .TYPE_ARRAY).map fun w1 =>
    ({ w1 with stack_ := ⟨true, 0⟩ :: w1.stack_ } : Writer).put [91]

/-- The method `Writer::EndArray`. -/
def Writer.EndArray (w : Writer) : Option Writer :=
  match w.stack_ with
  | [] => none
  | top :: rest =>
    if top.inArray then some (({ w with stack_ := rest } : Writer).put [93])
    else none

/-! ## Handler events -/

/-- One call of a `Handler` method. -/
inductive Event where
  | Null
  | Bool (b : Bool)
  | Int32 (i : Int)
  | Int64 (i : Int)
  | Double (d : DoubleArg)
  | String (s : List Byte)
  | Key (s : List Byte)
  | StartObject
  | EndObject
  | StartArray
  | EndArray
  deriving DecidableEq, Repr

/-- Dispatch of an event to the `Writer` method of the same name. -/
def Writer.handle (w : Writer) : Event → Option Writer
  | .Null => w.Null
  | .Bool b => w.Bool b
  | .Int32 i => w.Int32 i
  | .Int64 i => w.Int64 i
  | .Double d => w.Double d
  | .String s => w.String s
  | .Key s => w.Key s
  | .StartObject => w.StartObject
  | .EndObject => w.EndObject
  | .StartArray => w.StartArray
  | .EndArray => w.EndArray

/-- A sequence of calls; `none` as soon as one of them fails an assertion. -/
def Writer.run (w : Writer) : List Event → Option Writer
  | [] => some w
  | e :: es =>
    match w.handle e with
    | none => none
    | some w1 => w1.run es

/-! ## Reference renderings

The definitions of this section follow the wording of the specification; the
theorems compare them with what the `Writer` methods above produce. -/

/-- An integer of the signed type with `T.bits` bits (`int32_t`, `int64_t`). -/
def inRange (T : UWord) (i : Int) : Prop :=
  -(2 ^ (T.bits - 1)) ≤ i ∧ i < 2 ^ (T.bits - 1)

instance (T : UWord) (i : Int) : Decidable (inRange T i) := by
  unfold inRange; infer_instance

/-- The character of the decimal digit `d`. -/
def digitChar (d : Nat) : Byte := Fin.ofNat (48 + d)

/-- The canonical decimal representation of a natural number: its base-10
digits, most significant first, without leading zeros, and `0` for zero. -/
def decimal (n : Nat) : List Byte :=
  if n = 0 then [48] else (Nat.digits 10 n).reverse.map digitChar

/-- The canonical decimal representation of an integer: `-` exactly when it is
negative, then the representation of its absolute value. -/
def decimalInt (i : Int) : List Byte :=
  if i < 0 then 45 :: decimal i.natAbs else decimal i.natAbs

/-- The number a string of decimal digits denotes. -/
def readDecimal (bs : List Byte) : Nat :=
  bs.foldl (fun acc b => 10 * acc + (b.val - 48)) 0

/-- The integer a decimal literal with an optional leading `-` denotes. -/
def readInt : List Byte → Int
  | [] => 0
  | b :: bs => if b = 45 then -(readDecimal bs : Int) else (readDecimal (b :: bs) : Int)

/-- The sixteen hexadecimal digits in upper case. -/
def upperHex : List Byte := str "0123456789ABCDEF"

/-- The escape of one byte in a JSON string body, as the specification words
it: `\"` and `\\` for the quote and the backslash, the short escapes for
0x08, 0x0C, 0x0A, 0x0D, 0x09, `\u00XX` with upper-case hexadecimal digits for
every other byte below 0x20, and every other byte unchanged. -/
def escaped (b : Byte) : List Byte :=
  if b = 0x22 then [0x5C, 0x22]
  else if b = 0x5C then [0x5C, 0x5C]
  else if b = 0x08 then [0x5C, 0x62]
  else if b = 0x0C then [0x5C, 0x66]
  else if b = 0x0A then [0x5C, 0x6E]
  else if b = 0x0D then [0x5C, 0x72]
  else if b = 0x09 then [0x5C, 0x74]
  else if b.val < 0x20 then
    [0x5C, 0x75, 0x30, 0x30, upperHex.getD (b.val / 16) 0, upperHex.getD (b.val % 16) 0]
  else [b]

/-- A string between quotes, every byte escaped. -/
def quoted (s : List Byte) : List Byte := [0x22] ++ s.flatMap escaped ++ [0x22]

/-! ## Events and their own text -/

/-- The type tag a `Writer` method passes to `prefix`; the two `End` methods
do not call it. -/
def Event.type : Event → Option ValueType
  | .Null => some .TYPE_NULL
  | .Bool _ => some .TYPE_BOOL
  | .Int32 _ => some .TYPE_INT32
  | .Int64 _ => some .TYPE_INT64
  | .Double _ => some .TYPE_DOUBLE
  | .String _ => some .TYPE_STRING
  | .Key _ => some .TYPE_STRING
  | .StartObject => some .TYPE_OBJECT
  | .StartArray => some .TYPE_ARRAY
  | .EndObject => none
  | .EndArray => none

/-- The levels an event pushes on the context stack. -/
def Event.opened : Event → List Level
  | .StartObject => [⟨false, 0⟩]
  | .StartArray => [⟨true, 0⟩]
  | _ => []

/-- The scalar events: one value, no container. -/
def isScalar : Event → Bool
  | .Null | .Bool _ | .Int32 _ | .Int64 _ | .Double _ | .String _ => true
  | _ => false

/-- The own text of an event: what the method puts when it is the first call
on a fresh `Writer`, where no separator is due. -/
def Event.ownText (e : Event) : Option (List Byte) :=
  (Writer.fresh.handle e).map fun w => w.os_

/-- The separator `prefix` puts inside an array holding `k` values. -/
def arraySep (k : Nat) : List Byte := if k > 0 then [44] else []

/-- The separator `prefix` puts inside an object whose value count is `k`. -/
def objectSep (k : Nat) : List Byte :=
  if k % 2 = 1 then [58] else if k > 0 then [44] else []

/-- The texts `ts` written one after the other into a container that already
holds `k` of them: a comma before each one but the very first of the container. -/
def joinFrom (k : Nat) : List (List Byte) → List Byte
  | [] => []
  | t :: ts => arraySep k ++ t ++ joinFrom (k + 1) ts

/-! ## Value trees -/

/-- Modelled from the spec: the tagged tree of `hjson/Value.h` (section 3 of
the specification), a header that is not among the sources.  Arrays keep their
elements and objects their members in insertion order. -/
inductive Value where
  | null
  | bool (b : Bool)
  | int32 (i : Int)
  | int64 (i : Int)
  | double (d : DoubleArg)
  | string (s : List Byte)
  | array (elems : List Value)
  | object (members : List (List Byte × Value))

mutual
/-- Modelled from the spec: the traversal `Value::writeTo` of `hjson/Value.h`
(section 4.1), which is not among the sources: depth first, an object as
`StartObject`, then `Key(name)` and the events of the member for every member,
then `EndObject`; an array as `StartArray`, the events of every element,
`EndArray`; a primitive as its single event. -/
def Value.events : Value → List Event
  | .null => [.Null]
  | .bool b => [.Bool b]
  | .int32 i => [.Int32 i]
  | .int64 i => [.Int64 i]
  | .double d => [.Double d]
  | .string s => [.String s]
  | .array elems => .StartArray :: Value.elemEvents elems ++ [.EndArray]
  | .object members => .StartObject :: Value.memberEvents members ++ [.EndObject]
/-- The events of the elements of an array, in order. -/
def Value.elemEvents : List Value → List Event
  | [] => []
  | v :: rest => v.events ++ Value.elemEvents rest
/-- The events of the members of an object, in order. -/
def Value.memberEvents : List (List Byte × Value) → List Event
  | [] => []
  | (k, v) :: rest => .Key k :: v.events ++ Value.memberEvents rest
end

mutual
/-- The compact text of a value: an object is `{`, its members joined by `,`,
each written `"key":value`, and `}`; an array is `[`, its elements joined by
`,`, and `]`; nothing else is added. -/
def Value.compact : Value → List Byte
  | .null => str "null"
  | .bool b => if b then str "true" else str "false"
  | .int32 i => decimalInt i
  | .int64 i => decimalInt i
  | .double d => (doubleText d).getD []
  | .string s => quoted s
  | .array elems => [91] ++ List.intercalate [44] (Value.compactElems elems) ++ [93]
  | .object members => [123] ++ List.intercalate [44] (Value.compactMembers members) ++ [125]
/-- The compact texts of the elements of an array. -/
def Value.compactElems : List Value → List (List Byte)
  | [] => []
  | v :: rest => v.compact :: Value.compactElems rest
/-- The compact texts `"key":value` of the members of an object. -/
def Value.compactMembers : List (List Byte × Value) → List (List Byte)
  | [] => []
  | (k, v) :: rest => ([34] ++ k ++ [34] ++ [58] ++ v.compact) :: Value.compactMembers rest
end

mutual
/-- The values a tree may hold: every `Int32` fits 32 bits, every `Int64`
fits 64 bits, and the rendering of every `Double` passes the assertion of
`Writer::Double`. -/
def Value.wf : Value → Prop
  | .int32 i => inRange .u32 i
  | .int64 i => inRange .u64 i
  | .double d => (doubleText d).isSome
  | .array elems => Value.wfElems elems
  | .object members => Value.wfMembers members
  | _ => True
/-- Every element is well formed. -/
def Value.wfElems : List Value → Prop
  | [] => True
  | v :: rest => v.wf ∧ Value.wfElems rest
/-- Every member value is well formed. -/
def Value.wfMembers : List (List Byte × Value) → Prop
  | [] => True
  | (_, v) :: rest => v.wf ∧ Value.wfMembers rest
end

/-- The type tag of a value, which `writeTo` hands to `prefix` through the
event it emits first. -/
def Value.type : Value → ValueType
  | .null => .TYPE_NULL
  | .bool _ => .TYPE_BOOL
  | .int32 _ => .TYPE_INT32
  | .int64 _ => .TYPE_INT64
  | .double _ => .TYPE_DOUBLE
  | .string _ => .TYPE_STRING
  | .array _ => .TYPE_ARRAY
  | .object _ => .TYPE_OBJECT

/-! ## Counting containers -/

/-- The events that open a container. -/
def isStart : Event → Bool
  | .StartObject | .StartArray => true
  | _ => false

/-- The events that close a container. -/
def isEnd : Event → Bool
  | .EndObject | .EndArray => true
  | _ => false

/-- The size of the local buffer that `Writer::Int32` (`char buf[11]`) and
`Writer::Int64` (`char buf[20]`) hand to `detail::itoa`. -/
def UWord.bufSize : UWord → Nat
  | .u32 => 11
  | .u64 => 20

/-! ## The open containers of an event sequence -/

/-- An open container as the invariant of the `Writer` describes it: the
`Start` event that opened it and the events accepted directly inside it since
then, in order. -/
structure OpenContext where
  opener : Event
  direct : List Event
  deriving DecidableEq, Repr

/-- The effect of one accepted event on the open containers, innermost first:
an `End` event closes the innermost one; every other event counts once as a
direct entry of the innermost open container, and a `Start` event then opens
a new container, in which nothing has been accepted yet. -/
def trackStep (ctx : List OpenContext) (e : Event) : List OpenContext :=
  if isEnd e = true then ctx.tail
  else
    let ctx1 := match ctx with
      | [] => []
      | top :: rest => { top with direct := top.direct ++ [e] } :: rest
    if isStart e = true then ⟨e, []⟩ :: ctx1 else ctx1

/-- The open containers after a sequence of events, starting with none open. -/
def track (es : List Event) : List OpenContext := es.foldl trackStep []

/-- The `Level` that the invariant assigns to an open container: an array
exactly when `StartArray` opened it, with the number of its direct entries as
value count. -/
def OpenContext.level (c : OpenContext) : Level :=
  ⟨decide (c.opener = .StartArray), c.direct.length⟩

/-- Every open container was opened by a `Start` event and holds no `End`
event among its direct entries. -/
def OpenContext.sound (c : OpenContext) : Prop :=
  isStart c.opener = true ∧ ∀ e ∈ c.direct, isEnd e = false

/-! ## The Reader, modelled from the specification

`Reader` and `Document` are not among the sources; the example programs only
call them.  The definitions of this section follow section 4.2 of the
specification: one pass over the bytes, whitespace skipped between tokens, the
grammar `value := null | true | false | number | string | array | object`
with numbers as in RFC 8259, and the first violation reported with its code.
The conversion of a numeric literal to a `double` is the C library's and is a
parameter `strtod` of the model. -/

/-- Modelled from the spec: the status codes of section 4.2, `PARSE_OK` and
the error taxonomy, under the names the example programs use; the header that
declares them is not among the sources. -/
inductive ParseError where
  | PARSE_OK
  | PARSE_EXPECT_VALUE
  | PARSE_INVALID_VALUE
  | PARSE_ROOT_NOT_SINGULAR
  | PARSE_NUMBER_TOO_BIG
  | PARSE_MISS_QUOTATION_MARK
  | PARSE_BAD_STRING_ESCAPE
  | PARSE_BAD_STRING_CHAR
  | PARSE_BAD_UNICODE_HEX
  | PARSE_BAD_UNICODE_SURROGATE
  | PARSE_MISS_KEY
  | PARSE_MISS_COLON
  | PARSE_MISS_COMMA_OR_SQUARE_BRACKET
  | PARSE_MISS_COMMA_OR_CURLY_BRACKET
  deriving DecidableEq, Repr

/-- Modelled from the spec: the whitespace of section 4.2, space, tab, CR, LF. -/
def isWhitespace (b : Byte) : Bool := b = 0x20 || b = 0x09 || b = 0x0D || b = 0x0A

/-- Modelled from the spec: skipping whitespace between tokens. -/
def skipWhitespace : List Byte → List Byte
  | [] => []
  | b :: rest => if isWhitespace b = true then skipWhitespace rest else b :: rest

/-- The value of a hexadecimal digit of either case. -/
def hexValue (b : Byte) : Option Nat :=
  if 48 ≤ b.val ∧ b.val ≤ 57 then some (b.val - 48)
  else if 65 ≤ b.val ∧ b.val ≤ 70 then some (b.val - 55)
  else if 97 ≤ b.val ∧ b.val ≤ 102 then some (b.val - 87)
  else none

/-- The value of four hexadecimal digits, as after `\u`. -/
def hex4 (a b c d : Byte) : Option Nat :=
  match hexValue a, hexValue b, hexValue c, hexValue d with
  | some x, some y, some z, some w => some (((x * 16 + y) * 16 + z) * 16 + w)
  | _, _, _, _ => none

/-- The UTF-8 encoding of a code point. -/
def utf8Encode (cp : Nat) : List Byte :=
  if cp < 0x80 then [Fin.ofNat cp]
  else if cp < 0x800 then [Fin.ofNat (0xC0 + cp / 64), Fin.ofNat (0x80 + cp % 64)]
  else if cp < 0x10000 then
    [Fin.ofNat (0xE0 + cp / 4096), Fin.ofNat (0x80 + cp / 64 % 64), Fin.ofNat (0x80 + cp % 64)]
  else
    [Fin.ofNat (0xF0 + cp / 262144), Fin.ofNat (0x80 + cp / 4096 % 64),
     Fin.ofNat (0x80 + cp / 64 % 64), Fin.ofNat (0x80 + cp % 64)]

/-- The byte denoted by the character after a backslash in the short escapes
`\" \\ \/ \b \f \n \r \t`. -/
def simpleEscape (c : Byte) : Option Byte :=
  if c = 0x22 then some 0x22
  else if c = 0x5C then some 0x5C
  else if c = 0x2F then some 0x2F
  else if c = 0x62 then some 0x08
  else if c = 0x66 then some 0x0C
  else if c = 0x6E then some 0x0A
  else if c = 0x72 then some 0x0D
  else if c = 0x74 then some 0x09
  else none

/-- Decoded bytes put in front of the decoding of the rest of a string. -/
def prependDecoded (bs : List Byte) :
    Except ParseError (List Byte × List Byte) → Except ParseError (List Byte × List Byte)
  | .ok (s, rest) => .ok (bs ++ s, rest)
  | .error e => .error e

mutual
/-- Modelled from the spec: the string decoding of the Reader (section 4.2),
run on the input that follows the opening quote.  The result is the decoded
string and the input after the closing quote.  The standard escapes and
`\uXXXX` are decoded, a surrogate pair is recombined into one code point, a
lone or invalid surrogate is `BAD_UNICODE_SURROGATE`, an unknown escape is
`BAD_STRING_ESCAPE`, a raw byte below 0x20 is `BAD_STRING_CHAR`, and the end
of the input before the closing quote is `MISS_QUOTATION_MARK`. -/
def parseStringBody : List Byte → Except ParseError (List Byte × List Byte)
  | [] => .error .PARSE_MISS_QUOTATION_MARK
  | b :: rest =>
    if b = 0x22 then .ok ([], rest)
    else if b = 0x5C then parseEscape rest
    else if b.val < 0x20 then .error .PARSE_BAD_STRING_CHAR
    else prependDecoded [b] (parseStringBody rest)
/-- Modelled from the spec: the string decoding after a backslash. -/
def parseEscape : List Byte → Except ParseError (List Byte × List Byte)
  | [] => .error .PARSE_MISS_QUOTATION_MARK
  | c :: rest =>
    if c = 0x75 then parseUnicode rest
    else
      match simpleEscape c with
      | some x => prependDecoded [x] (parseStringBody rest)
      | none => .error .PARSE_BAD_STRING_ESCAPE
/-- Modelled from the spec: the string decoding after `\u`: four hexadecimal
digits, and for a high surrogate the low surrogate that must follow. -/
def parseUnicode : List Byte → Except ParseError (List Byte × List Byte)
  | h1 :: h2 :: h3 :: h4 :: rest =>
    match hex4 h1 h2 h3 h4 with
    | none => .error .PARSE_BAD_UNICODE_HEX
    | some u =>
      if 0xD800 ≤ u ∧ u ≤ 0xDBFF then parseLowSurrogate u rest
      else if 0xDC00 ≤ u ∧ u ≤ 0xDFFF then .error .PARSE_BAD_UNICODE_SURROGATE
      else prependDecoded (utf8Encode u) (parseStringBody rest)
  | _ => .error .PARSE_BAD_UNICODE_HEX
/-- Modelled from the spec: the string decoding after a high surrogate `hi`:
`\u` and a low surrogate. -/
def parseLowSurrogate (hi : Nat) : List Byte → Except ParseError (List Byte × List Byte)
  | b1 :: b2 :: l1 :: l2 :: l3 :: l4 :: rest =>
    if b1 = 0x5C ∧ b2 = 0x75 then
      match hex4 l1 l2 l3 l4 with
      | none => .error .PARSE_BAD_UNICODE_HEX
      | some lo =>
        if 0xDC00 ≤ lo ∧ lo ≤ 0xDFFF then
          prependDecoded (utf8Encode (0x10000 + (hi - 0xD800) * 0x400 + (lo - 0xDC00)))
            (parseStringBody rest)
        else .error .PARSE_BAD_UNICODE_SURROGATE
    else .error .PARSE_BAD_UNICODE_SURROGATE
  | _ => .error .PARSE_BAD_UNICODE_SURROGATE
end

/-- Standard JSON string unescaping of the text between the two quotes of a
string: the decoding of the body up to a closing quote put right after it;
`none` when the body does not decode as a whole, as when it holds a raw quote
or a raw byte below 0x20. -/
def unescape (body : List Byte) : Option (List Byte) :=
  match parseStringBody (body ++ [0x22]) with
  | .ok (s, []) => some s
  | _ => none

/-- The longest run of decimal digits at the front of the input, and what
follows it. -/
def spanDigits : List Byte → List Byte × List Byte
  | [] => ([], [])
  | b :: rest =>
    if isdigit b = true then ((b :: (spanDigits rest).1), (spanDigits rest).2)
    else ([], b :: rest)

/-- Modelled from the spec: the numeric classification of section 4.1 for a
literal without fraction and exponent: `Int32` if the value fits the 32-bit
signed range, `Int64` if it is larger and fits 64 bits, and otherwise a
`Double`, converted by `strtod`; a literal beyond the range of a `double` is
`NUMBER_TOO_BIG`. -/
def classifyNumber (strtod : List Byte → DoubleArg) (literal : List Byte) (integral : Bool)
    (value : Int) : ParseError × List Event :=
  if integral = true ∧ -2147483648 ≤ value ∧ value ≤ 2147483647 then
    (.PARSE_OK, [.Int32 value])
  else if integral = true ∧ -9223372036854775808 ≤ value ∧ value ≤ 9223372036854775807 then
    (.PARSE_OK, [.Int64 value])
  else
    match strtod literal with
    | .inf _ => (.PARSE_NUMBER_TOO_BIG, [])
    | d => (.PARSE_OK, [.Double d])

/-- Modelled from the spec: the integer part `0 | [1-9][0-9]*` of a number
token (RFC 8259) and what follows it;
a leading zero ends the integer part; `none` when no digit is there. -/
def numberInt : List Byte → Option (List Byte × List Byte)
  | [] => none
  | d :: r =>
    if isdigit d = false then none
    else if d = 48 then some ([48], r)
    else some (spanDigits (d :: r))

/-- Modelled from the spec: the optional fraction `. [0-9]+` of a number token
(RFC 8259): whether it is there,
and what follows it; `none` when no digit follows the point. -/
def numberFrac (t : List Byte) : Option (Bool × List Byte) :=
  if t.head? = some 46 then
    if (spanDigits t.tail).1 = [] then none else some (true, (spanDigits t.tail).2)
  else some (false, t)

/-- Modelled from the spec: the optional exponent `[eE] [+-]? [0-9]+` of a
number token (RFC 8259): whether it is there, and what follows it; `none` when no digit follows the `e`. -/
def numberExp (t : List Byte) : Option (Bool × List Byte) :=
  if t.head? = some 101 ∨ t.head? = some 69 then
    if (spanDigits (if t.tail.head? = some 43 ∨ t.tail.head? = some 45
          then t.tail.tail else t.tail)).1 = [] then none
    else some (true, (spanDigits (if t.tail.head? = some 43 ∨ t.tail.head? = some 45
          then t.tail.tail else t.tail)).2)
  else some (false, t)

/-- Modelled from the spec: a number token of the grammar of RFC 8259,
`-? (0 | [1-9][0-9]*) (. [0-9]+)? ([eE] [+-]? [0-9]+)?`.  A leading zero ends
the integer part, so `01` is the number `0` followed by `1`.  A token that
breaks the grammar is `INVALID_VALUE`.  The result is the status, the event
delivered and the input after the token. -/
def parseNumber (strtod : List Byte → DoubleArg) (text : List Byte) :
    ParseError × List Event × List Byte :=
  match numberInt (if text.head? = some 45 then text.tail else text) with
  | none => (.PARSE_INVALID_VALUE, [], text)
  | some (ip, t2) =>
    match numberFrac t2 with
    | none => (.PARSE_INVALID_VALUE, [], t2)
    | some (hasFrac, t3) =>
      match numberExp t3 with
      | none => (.PARSE_INVALID_VALUE, [], t3)
      | some (hasExp, t4) =>
        ((classifyNumber strtod (text.take (text.length - t4.length)) (!hasFrac && !hasExp)
            (if text.head? = some 45 then -(readDecimal ip : Int) else readDecimal ip)).1,
         (classifyNumber strtod (text.take (text.length - t4.length)) (!hasFrac && !hasExp)
            (if text.head? = some 45 then -(readDecimal ip : Int) else readDecimal ip)).2,
         t4)

/-- Modelled from the spec: one of the literals `null`, `true`, `false`; a
token that starts like the literal and differs from it is `INVALID_VALUE`. -/
def parseLiteral (literal : List Byte) (e : Event) (text : List Byte) :
    ParseError × List Event × List Byte :=
  if literal.isPrefixOf text = true then (.PARSE_OK, [e], text.drop literal.length)
  else (.PARSE_INVALID_VALUE, [], text)

mutual
/-- Modelled from the spec: `value := null | true | false | number | string |
array | object` (section 4.2), run on input whose leading whitespace has been
skipped.  The result is the status (`PARSE_OK` when the value is complete),
the events delivered to the handler, which are kept on failure, and the input
that follows.  Every call consumes input before it goes deeper, so a fuel of
twice the length of the input plus two is never used up; `none` stands for a
fuel that was too small. -/
def parseValue (strtod : List Byte → DoubleArg) :
    Nat → List Byte → Option (ParseError × List Event × List Byte)
  | 0, _ => none
  | fuel + 1, text =>
    match text with
    | [] => some (.PARSE_EXPECT_VALUE, [], [])
    | b :: rest =>
      if b = 110 then some (parseLiteral (str "null") .Null text)
      else if b = 116 then some (parseLiteral (str "true") (.Bool true) text)
      else if b = 102 then some (parseLiteral (str "false") (.Bool false) text)
      else if b = 34 then
        match parseStringBody rest with
        | .ok (s, r) => some (.PARSE_OK, [.String s], r)
        | .error e => some (e, [], rest)
      else if b = 91 then
        if (skipWhitespace rest).head? = some 93 then
          some (.PARSE_OK, [.StartArray, .EndArray], (skipWhitespace rest).tail)
        else
          match parseElements strtod fuel (skipWhitespace rest) with
          | none => none
          | some (err, evs, r) =>
            some (err, .StartArray :: evs ++ (if err = .PARSE_OK then [.EndArray] else []), r)
      else if b = 123 then
        if (skipWhitespace rest).head? = some 125 then
          some (.PARSE_OK, [.StartObject, .EndObject], (skipWhitespace rest).tail)
        else
          match parseMembers strtod fuel (skipWhitespace rest) with
          | none => none
          | some (err, evs, r) =>
            some (err, .StartObject :: evs ++ (if err = .PARSE_OK then [.EndObject] else []), r)
      else some (parseNumber strtod text)
/-- Modelled from the spec: the elements of an array (section 4.2) from the
start of an element on: a value, then
`,` and the remaining elements, or the closing `]`.  An array that is not
separated by `,` or closed by `]`, also by the end of the input, is
`MISS_COMMA_OR_SQUARE_BRACKET`. -/
def parseElements (strtod : List Byte → DoubleArg) :
    Nat → List Byte → Option (ParseError × List Event × List Byte)
  | 0, _ => none
  | fuel + 1, text =>
    if text = [] then some (.PARSE_MISS_COMMA_OR_SQUARE_BRACKET, [], [])
    else
      match parseValue strtod fuel text with
      | none => none
      | some (err, evs, r) =>
        if err ≠ .PARSE_OK then some (err, evs, r)
        else if (skipWhitespace r).head? = some 44 then
          match parseElements strtod fuel (skipWhitespace (skipWhitespace r).tail) with
          | none => none
          | some (err2, evs2, r2) => some (err2, evs ++ evs2, r2)
        else if (skipWhitespace r).head? = some 93 then
          some (.PARSE_OK, evs, (skipWhitespace r).tail)
        else some (.PARSE_MISS_COMMA_OR_SQUARE_BRACKET, evs, skipWhitespace r)
/-- Modelled from the spec: the members of an object (section 4.2) from the
start of a member on: a quoted name
(`MISS_KEY` otherwise), `:` (`MISS_COLON` otherwise), a value, then `,` and
the remaining members, or the closing `}`.  An object that is not separated by
`,` or closed by `}`, also by the end of the input, is
`MISS_COMMA_OR_CURLY_BRACKET`. -/
def parseMembers (strtod : List Byte → DoubleArg) :
    Nat → List Byte → Option (ParseError × List Event × List Byte)
  | 0, _ => none
  | fuel + 1, text =>
    if text = [] then some (.PARSE_MISS_COMMA_OR_CURLY_BRACKET, [], [])
    else if text.head? ≠ some 34 then some (.PARSE_MISS_KEY, [], text)
    else
      match parseStringBody text.tail with
      | .error e => some (e, [], text.tail)
      | .ok (k, r) =>
        if (skipWhitespace r).head? ≠ some 58 then
          some (.PARSE_MISS_COLON, [.Key k], skipWhitespace r)
        else
          match parseValue strtod fuel (skipWhitespace (skipWhitespace r).tail) with
          | none => none
          | some (err, evs, r1) =>
            if err ≠ .PARSE_OK then some (err, .Key k :: evs, r1)
            else if (skipWhitespace r1).head? = some 44 then
              match parseMembers strtod fuel (skipWhitespace (skipWhitespace r1).tail) with
              | none => none
              | some (err2, evs2, r2) => some (err2, .Key k :: evs ++ evs2, r2)
            else if (skipWhitespace r1).head? = some 125 then
              some (.PARSE_OK, .Key k :: evs, (skipWhitespace r1).tail)
            else some (.PARSE_MISS_COMMA_OR_CURLY_BRACKET, .Key k :: evs, skipWhitespace r1)
end

/-- Modelled from the spec: `Reader::parse` (section 4.2) with a handler that
never asks to stop: leading whitespace is skipped, an input that is empty or
only whitespace is `EXPECT_VALUE`, the root value is read, and non-whitespace
content after the complete root value is `ROOT_NOT_SINGULAR`.  The result is
the status and the events delivered. -/
def Reader.parse (strtod : List Byte → DoubleArg) (text : List Byte) :
    Option (ParseError × List Event) :=
  if skipWhitespace text = [] then some (.PARSE_EXPECT_VALUE, [])
  else
    match parseValue strtod (2 * text.length + 2) (skipWhitespace text) with
    | none => none
    | some (err, evs, rest) =>
      if err ≠ .PARSE_OK then some (err, evs)
      else if skipWhitespace rest = [] then some (.PARSE_OK, evs)
      else some (.PARSE_ROOT_NOT_SINGULAR, evs)

/-- Modelled from the spec: the status `Document::parse` returns (section
4.5), which is the status of the Reader driving the DOM builder. -/
def Document.parse (strtod : List Byte → DoubleArg) (text : List Byte) : Option ParseError :=
  (Reader.parse strtod text).map fun r => r.1

/-! ## Leading zeros and bit length -/

theorem clzAux_spec (x : Nat) (hx : 0 < x) :
    ∀ i, x < 2 ^ i → clzAux x i < i ∧ 2 ^ (i - clzAux x i - 1) ≤ x ∧ x < 2 ^ (i - clzAux x i) := by
  intro i
  induction i with
  | zero => intro h; simp at h; omega
  | succ i ih =>
    intro h
    by_cases hb : x.testBit i = true
    · have hge := Nat.testBit_implies_ge hb
      simp only [clzAux, hb, if_true]
      refine ⟨by omega, ?_, ?_⟩
      · simpa using hge
      · simpa using h
    · have hb2 : x.testBit i = false := by simpa using hb
      have hlt : x < 2 ^ i := by
        apply Nat.lt_pow_two_of_testBit
        intro j hj
        rcases Nat.eq_or_lt_of_le hj with rfl | hj2
        · exact hb2
        · apply Nat.testBit_lt_two_pow
          exact lt_of_lt_of_le h (Nat.pow_le_pow_right (by decide) hj2)
      obtain ⟨h1, h2, h3⟩ := ih hlt
      simp only [clzAux, hb2]
      have e : i + 1 - (clzAux x i + 1) = i - clzAux x i := by omega
      simp only [Bool.false_eq_true, if_false, e]
      exact ⟨by omega, h2, h3⟩

theorem or_one_eq (n : Nat) : n ||| 1 = if n % 2 = 0 then n + 1 else n := by
  have h1 : (n ||| 1) / 2 = n / 2 := by
    have := @Nat.or_div_two n 1
    simpa using this
  have h2 : (n ||| 1) % 2 = 1 := by
    rw [Nat.or_mod_two_eq_one]; simp
  split <;> omega

/-- The bit length `w - clz (n | 1)` computed by `countDigits`. -/
theorem bitlen_spec (w n : Nat) (hw : 0 < w) (hn : n < 2 ^ w) :
    ∃ L, w - clz w (n ||| 1) = L ∧ 1 ≤ L ∧ L ≤ w ∧ n < 2 ^ L ∧ (2 ≤ L → 2 ^ (L - 1) ≤ n) := by
  have hm : n ||| 1 < 2 ^ w := by
    apply Nat.or_lt_two_pow hn
    exact Nat.one_lt_two_pow (by omega)
  have hpos : 0 < n ||| 1 := by rw [or_one_eq]; split <;> omega
  obtain ⟨h1, h2, h3⟩ := clzAux_spec (n ||| 1) hpos w hm
  refine ⟨w - clz w (n ||| 1), rfl, ?_, ?_, ?_, ?_⟩
  · unfold clz; omega
  · omega
  · unfold clz
    have : n ≤ n ||| 1 := by rw [or_one_eq]; split <;> omega
    omega
  · intro hL
    unfold clz at hL ⊢
    obtain ⟨k, hk⟩ : ∃ k, w - clzAux (n ||| 1) w - 1 = k + 1 := ⟨w - clzAux (n ||| 1) w - 2, by omega⟩
    rw [hk] at h2 ⊢
    rw [or_one_eq] at h2
    rw [pow_succ] at h2 ⊢
    split at h2 <;> omega

theorem digits_length_eq (n k : Nat) (h1 : 10 ^ k ≤ n) (h2 : n < 10 ^ (k + 1)) :
    (Nat.digits 10 n).length = k + 1 := by
  have hn : n ≠ 0 := by
    have : 0 < 10 ^ k := by positivity
    omega
  rw [Nat.digits_len 10 n (by decide) hn]
  rw [Nat.log_eq_of_pow_le_of_lt_pow h1 h2]

theorem decimal_length_eq (n k : Nat) (h1 : k = 0 ∨ 10 ^ k ≤ n) (h2 : n < 10 ^ (k + 1)) :
    (decimal n).length = k + 1 := by
  unfold decimal
  split
  · next h0 =>
    subst h0
    rcases h1 with h | h
    · simp [h]
    · have : 0 < 10 ^ k := by positivity
      omega
  · next h0 =>
    simp only [List.length_map, List.length_reverse]
    rcases h1 with h | h
    · subst h
      exact digits_length_eq n 0 (by simp; omega) h2
    · exact digits_length_eq n k h h2

set_option maxRecDepth 4000 in
theorem countDigits32_eq (n : Nat) (hn : n < 2 ^ 32) :
    countDigits32 n = some (decimal n).length := by
  obtain ⟨L, hL, h1, h2, h3, h4⟩ := bitlen_spec 32 n (by decide) hn
  unfold countDigits32 countDigitsIndex32
  rw [hL]
  interval_cases L <;> simp [powers_of_10_32, Nat.shiftRight_eq_div_pow] at h3 h4 ⊢ <;>
    first
      | (rw [decimal_length_eq n 0 (Or.inl rfl) (by omega)])
      | (split <;> rename_i hc <;> simp at hc ⊢ <;> symm <;> first
          | exact decimal_length_eq n 0 (Or.inl rfl) (by omega)
          | exact decimal_length_eq n 1 (Or.inr (by omega)) (by omega)
          | exact decimal_length_eq n 2 (Or.inr (by omega)) (by omega)
          | exact decimal_length_eq n 3 (Or.inr (by omega)) (by omega)
          | exact decimal_length_eq n 4 (Or.inr (by omega)) (by omega)
          | exact decimal_length_eq n 5 (Or.inr (by omega)) (by omega)
          | exact decimal_length_eq n 6 (Or.inr (by omega)) (by omega)
          | exact decimal_length_eq n 7 (Or.inr (by omega)) (by omega)
          | exact decimal_length_eq n 8 (Or.inr (by omega)) (by omega)
          | exact decimal_length_eq n 9 (Or.inr (by omega)) (by omega))

set_option maxRecDepth 4000 in
set_option maxHeartbeats 1600000 in
theorem countDigits64_eq (n : Nat) (hn : n < 2 ^ 64) :
    countDigits64 n = some (decimal n).length := by
  obtain ⟨L, hL, h1, h2, h3, h4⟩ := bitlen_spec 64 n (by decide) hn
  unfold countDigits64 countDigitsIndex64
  rw [hL]
  interval_cases L <;> simp [powers_of_10_64, Nat.shiftRight_eq_div_pow] at h3 h4 ⊢ <;>
    first
      | (rw [decimal_length_eq n 0 (Or.inl rfl) (by omega)])
      | (split <;> rename_i hc <;> simp at hc ⊢ <;> symm <;> first
          | exact decimal_length_eq n 0 (Or.inl rfl) (by omega)
          | exact decimal_length_eq n 1 (Or.inr (by omega)) (by omega)
          | exact decimal_length_eq n 2 (Or.inr (by omega)) (by omega)
          | exact decimal_length_eq n 3 (Or.inr (by omega)) (by omega)
          | exact decimal_length_eq n 4 (Or.inr (by omega)) (by omega)
          | exact decimal_length_eq n 5 (Or.inr (by omega)) (by omega)
          | exact decimal_length_eq n 6 (Or.inr (by omega)) (by omega)
          | exact decimal_length_eq n 7 (Or.inr (by omega)) (by omega)
          | exact decimal_length_eq n 8 (Or.inr (by omega)) (by omega)
          | exact decimal_length_eq n 9 (Or.inr (by omega)) (by omega)
          | exact decimal_length_eq n 10 (Or.inr (by omega)) (by omega)
          | exact decimal_length_eq n 11 (Or.inr (by omega)) (by omega)
          | exact decimal_length_eq n 12 (Or.inr (by omega)) (by omega)
          | exact decimal_length_eq n 13 (Or.inr (by omega)) (by omega)
          | exact decimal_length_eq n 14 (Or.inr (by omega)) (by omega)
          | exact decimal_length_eq n 15 (Or.inr (by omega)) (by omega)
          | exact decimal_length_eq n 16 (Or.inr (by omega)) (by omega)
          | exact decimal_length_eq n 17 (Or.inr (by omega)) (by omega)
          | exact decimal_length_eq n 18 (Or.inr (by omega)) (by omega)
          | exact decimal_length_eq n 19 (Or.inr (by omega)) (by omega))

/-! ## The decimal representation -/

theorem decimal_lt_ten (n : Nat) (h : n < 10) : decimal n = [digitChar n] := by
  unfold decimal
  split
  · next h0 => subst h0; rfl
  · next h0 =>
    rw [Nat.digits_def' (by decide) (by omega)]
    have : n / 10 = 0 := by omega
    simp [this, Nat.mod_eq_of_lt h]

theorem decimal_ge_ten (n : Nat) (h : 10 ≤ n) :
    decimal n = decimal (n / 10) ++ [digitChar (n % 10)] := by
  have h1 : n ≠ 0 := by omega
  have h2 : n / 10 ≠ 0 := by omega
  unfold decimal
  rw [if_neg h1, if_neg h2, Nat.digits_def' (by decide) (by omega)]
  simp

theorem decimal_two (n : Nat) (h1 : 10 ≤ n) (h2 : n < 100) :
    decimal n = [digitChar (n / 10), digitChar (n % 10)] := by
  rw [decimal_ge_ten n h1, decimal_lt_ten (n / 10) (by omega)]
  rfl

theorem decimal_ge_hundred (n : Nat) (h : 100 ≤ n) :
    decimal n = decimal (n / 100) ++ [digitChar (n % 100 / 10), digitChar (n % 100 % 10)] := by
  rw [decimal_ge_ten n (by omega), decimal_ge_ten (n / 10) (by omega)]
  have e1 : n / 10 / 10 = n / 100 := by omega
  have e2 : n / 10 % 10 = n % 100 / 10 := by omega
  have e3 : n % 10 = n % 100 % 10 := by omega
  rw [e1, e2, ← e3]
  simp

theorem decimal_length_pos (n : Nat) : 1 ≤ (decimal n).length := by
  by_cases h : n < 10
  · rw [decimal_lt_ten n h]; simp
  · rw [decimal_ge_ten n (by omega)]; simp

set_option maxRecDepth 100000 in
theorem digits_lookup_fin : ∀ r : Fin 100,
    digits[r.val * 2 + 1]? = some (digitChar (r.val % 10)) ∧
    digits[r.val * 2]? = some (digitChar (r.val / 10)) := by
  unfold digits
  decide

theorem digits_lookup (r : Nat) (h : r < 100) :
    digits[(r * 2) % 2 ^ 32 + 1]? = some (digitChar (r % 10)) ∧
    digits[(r * 2) % 2 ^ 32]? = some (digitChar (r / 10)) := by
  have e : (r * 2) % 2 ^ 32 = r * 2 := Nat.mod_eq_of_lt (by omega)
  rw [e]
  exact digits_lookup_fin ⟨r, h⟩

/-! ## Writes into a buffer -/

theorem Buf.write_last_none (pre suf : Buf) (k : Nat) (c : Byte) :
    Buf.write (pre ++ List.replicate (k + 1) none ++ suf) (pre.length + k) c
      = some (pre ++ List.replicate k none ++ some c :: suf) := by
  unfold Buf.write
  rw [if_pos (by simp; omega)]
  rw [List.replicate_succ']
  simp [List.set_append]

/-! ## `itoa_` writes the decimal representation -/

theorem itoaLoop_spec : ∀ (fuel val next : Nat) (pre suf : Buf),
    1 ≤ fuel → val < 100 ^ fuel → (decimal val).length = next + 1 → next < 2 ^ 32 →
    (match itoaLoop fuel val next (pre ++ List.replicate (next + 1) none ++ suf) pre.length with
     | none => none
     | some (v1, n1, b1) => itoaLast v1 n1 b1 pre.length)
      = some (pre ++ (decimal val).map some ++ suf) := by
  intro fuel
  induction fuel with
  | zero => intro val next pre suf h; omega
  | succ fuel ih =>
    intro val next pre suf _ hval hlen hnext
    by_cases h100 : 100 ≤ val
    · have hdec := decimal_ge_hundred val h100
      have hpos := decimal_length_pos (val / 100)
      rw [hdec] at hlen
      simp only [List.length_append, List.length_cons, List.length_nil] at hlen
      obtain ⟨m, rfl⟩ : ∃ m, next = m + 2 := ⟨next - 2, by omega⟩
      obtain ⟨hl1, hl2⟩ := digits_lookup (val % 100) (Nat.mod_lt _ (by decide))
      have hfuel : 1 ≤ fuel := by
        rcases fuel with _ | f
        · simp at hval; omega
        · omega
      have hval2 : val / 100 < 100 ^ fuel := by
        rw [pow_succ] at hval
        exact Nat.div_lt_of_lt_mul (by rw [Nat.mul_comm]; exact hval)
      have e1 : (m + 2 + 2 ^ 32 - 1) % 2 ^ 32 = m + 1 := by omega
      have e2 : (m + 2 + 2 ^ 32 - 2) % 2 ^ 32 = m := by omega
      have w1 := Buf.write_last_none pre suf (m + 2) (digitChar (val % 100 % 10))
      have w2 := Buf.write_last_none pre (some (digitChar (val % 100 % 10)) :: suf) (m + 1)
        (digitChar (val % 100 / 10))
      have hrec := ih (val / 100) m pre
        (some (digitChar (val % 100 / 10)) :: some (digitChar (val % 100 % 10)) :: suf)
        hfuel hval2 (by omega) (by omega)
      rw [itoaLoop]
      simp only [if_pos h100, hl1, hl2, e1, e2]
      rw [show pre.length + (m + 2) = pre.length + (m + 2) from rfl, w1]
      simp only []
      rw [show pre.length + (m + 1) = pre.length + (m + 1) from rfl, w2]
      simp only []
      rw [hrec, hdec]
      simp
    · have hlt : val < 100 := by omega
      rw [itoaLoop]
      simp only [if_neg h100]
      by_cases h10 : val < 10
      · rw [decimal_lt_ten val h10] at hlen ⊢
        simp only [List.length_cons, List.length_nil] at hlen
        obtain rfl : next = 0 := by omega
        simp only [itoaLast, if_pos h10]
        have w1 := Buf.write_last_none pre suf 0 (digitChar val)
        simp only [digitChar] at w1 ⊢
        rw [w1]
        simp
      · rw [decimal_two val (by omega) hlt] at hlen ⊢
        simp only [List.length_cons, List.length_nil] at hlen
        obtain rfl : next = 1 := by omega
        obtain ⟨hl1, hl2⟩ := digits_lookup val hlt
        have w1 := Buf.write_last_none pre suf 1 (digitChar (val % 10))
        have w2 := Buf.write_last_none pre (some (digitChar (val % 10)) :: suf) 0
          (digitChar (val / 10))
        have e1 : (1 + 2 ^ 32 - 1) % 2 ^ 32 = 0 := by decide
        simp only [itoaLast, if_neg h10, hl1, hl2, e1]
        rw [w1]
        simp only []
        rw [w2]
        simp

theorem decimal_length_le (n k : Nat) (hk : 1 ≤ k) (h : n < 10 ^ k) :
    (decimal n).length ≤ k := by
  unfold decimal
  split
  · simpa using hk
  · next h0 =>
    simp only [List.length_map, List.length_reverse]
    have h1 := Nat.base_pow_length_digits_le 10 n (by decide) h0
    have h2 : 10 ^ (Nat.digits 10 n).length < 10 ^ (k + 1) := by
      rw [pow_succ]; omega
    have := (Nat.pow_lt_pow_iff_right (by decide : 1 < 10)).1 h2
    omega

theorem UWord.bits_pos (T : UWord) : 0 < T.bits := by cases T <;> decide

theorem countDigits_eq (T : UWord) (n : Nat) (hn : n < 2 ^ T.bits) :
    countDigits T n = some (decimal n).length := by
  cases T
  · exact countDigits32_eq n hn
  · exact countDigits64_eq n hn

theorem itoa__spec (T : UWord) (val : Nat) (hval : val < 2 ^ T.bits) (pre suf : Buf) :
    itoa_ T val (pre ++ List.replicate (decimal val).length none ++ suf) pre.length
      = some (pre ++ (decimal val).map some ++ suf, (decimal val).length) := by
  have hpos := decimal_length_pos val
  have hle : (decimal val).length ≤ 20 := by
    apply decimal_length_le val 20 (by decide)
    have : 2 ^ T.bits ≤ 10 ^ 20 := by cases T <;> decide
    omega
  obtain ⟨m, hm⟩ : ∃ m, (decimal val).length = m + 1 := ⟨(decimal val).length - 1, by omega⟩
  have hfuel : val < 100 ^ T.bits := by
    have : 2 ^ T.bits ≤ 100 ^ T.bits := Nat.pow_le_pow_left (by decide) _
    omega
  have hloop := itoaLoop_spec T.bits val m pre suf T.bits_pos hfuel hm (by omega)
  have e : (m + 1 + 2 ^ 32 - 1) % 2 ^ 32 = m := by omega
  unfold itoa_
  rw [countDigits_eq T val hval]
  simp only [hm, e]
  revert hloop
  cases itoaLoop T.bits val m (pre ++ List.replicate (m + 1) none ++ suf) pre.length with
  | none => intro h; simp at h
  | some r =>
    obtain ⟨v1, n1, b1⟩ := r
    intro h
    simp only at h ⊢
    rw [h]

theorem Buf.read_map_some (l : List Byte) : Buf.read (l.map some) = some l := by
  induction l with
  | nil => rfl
  | cons b l ih => simp [Buf.read, ih]

theorem Buf.view_written (l : List Byte) (rest : Buf) :
    Buf.view (l.map some ++ rest) l.length = some l := by
  unfold Buf.view
  rw [if_pos (by simp)]
  rw [List.take_left' (by simp)]
  exact Buf.read_map_some l

theorem itoa_unsigned (T : UWord) (i : Int) (h : inRange T i) :
    (i.natAbs < 2 ^ T.bits) ∧
    (i < 0 → ((2 ^ T.bits - 1 - (i % 2 ^ T.bits).toNat) + 1) % 2 ^ T.bits = i.natAbs) ∧
    (¬ i < 0 → (i % 2 ^ T.bits).toNat = i.natAbs) := by
  cases T <;> simp only [inRange, UWord.bits] at h ⊢ <;> norm_num at h ⊢ <;> omega

theorem Buf.fresh_split (a b : Nat) (h : a ≤ b) :
    Buf.fresh b = List.replicate a none ++ List.replicate (b - a) none := by
  unfold Buf.fresh
  rw [← List.replicate_add]
  congr 1
  omega

theorem itoa_spec (T : UWord) (i : Int) (h : inRange T i) (N : Nat)
    (hN : (decimalInt i).length ≤ N) :
    itoa T i (Buf.fresh N)
      = some ((decimalInt i).map some ++ List.replicate (N - (decimalInt i).length) none,
              (decimalInt i).length) := by
  obtain ⟨hlt, hneg, hpos⟩ := itoa_unsigned T i h
  have hlen20 : (decimal i.natAbs).length ≤ 20 := by
    apply decimal_length_le _ 20 (by decide)
    have : 2 ^ T.bits ≤ 10 ^ 20 := by cases T <;> decide
    omega
  unfold itoa
  by_cases hi : i < 0
  · simp only [decimalInt, if_pos hi, List.length_cons] at hN ⊢
    rw [hneg hi]
    generalize hrest : List.replicate (N - ((decimal i.natAbs).length + 1)) (none : Option Byte)
      = rest
    have hw : Buf.write (Buf.fresh N) 0 45
        = some ([some 45] ++ List.replicate (decimal i.natAbs).length none ++ rest) := by
      have hb : Buf.fresh N = [] ++ List.replicate (0 + 1) none ++
          (List.replicate (decimal i.natAbs).length none ++ rest) := by
        rw [← hrest]
        unfold Buf.fresh
        simp only [List.nil_append, ← List.replicate_add]
        congr 1
        omega
      rw [hb]
      have := Buf.write_last_none [] (List.replicate (decimal i.natAbs).length none ++ rest) 0 45
      simpa using this
    have hs := itoa__spec T i.natAbs hlt [some 45] rest
    rw [hw]
    simp only [List.length_cons, List.length_nil, Nat.zero_add] at hs
    simp only []
    rw [hs]
    have e : (1 + (decimal i.natAbs).length) % 2 ^ 32 = (decimal i.natAbs).length + 1 := by
      omega
    simp only [e]
    simp
  · simp only [decimalInt, if_neg hi] at hN ⊢
    rw [hpos hi]
    have hs := itoa__spec T i.natAbs hlt [] (List.replicate (N - (decimal i.natAbs).length) none)
    rw [Buf.fresh_split (decimal i.natAbs).length N hN]
    simp only [List.length_nil, List.nil_append] at hs
    rw [hs]
    have e : (0 + (decimal i.natAbs).length) % 2 ^ 32 = (decimal i.natAbs).length := by
      omega
    simp only [e]

theorem decimalInt_length_le (T : UWord) (i : Int) (h : inRange T i) :
    (decimalInt i).length ≤ (match T with | .u32 => 11 | .u64 => 20) := by
  unfold decimalInt
  cases T <;> simp only [inRange, UWord.bits] at h <;> norm_num at h
  · have := decimal_length_le i.natAbs 10 (by decide) (by omega)
    split <;> simp <;> omega
  · have := decimal_length_le i.natAbs 19 (by decide) (by omega)
    split <;> simp <;> omega

theorem int32Text_eq (i : Int) (h : inRange .u32 i) : int32Text i = some (decimalInt i) := by
  unfold int32Text
  rw [itoa_spec .u32 i h 11 (decimalInt_length_le .u32 i h)]
  simp only [Buf.view_written]

theorem int64Text_eq (i : Int) (h : inRange .u64 i) : int64Text i = some (decimalInt i) := by
  unfold int64Text
  rw [itoa_spec .u64 i h 20 (decimalInt_length_le .u64 i h)]
  simp only [Buf.view_written]

theorem Writer.Int32_eq (w : Writer) (i : Int) (h : inRange .u32 i) :
    w.Int32 i = (w.prefix_ .TYPE_INT32).map fun w1 => w1.put (decimalInt i) := by
  unfold Writer.Int32
  rw [int32Text_eq i h]
  cases w.prefix_ .TYPE_INT32 <;> rfl

theorem Writer.Int64_eq (w : Writer) (i : Int) (h : inRange .u64 i) :
    w.Int64 i = (w.prefix_ .TYPE_INT64).map fun w1 => w1.put (decimalInt i) := by
  unfold Writer.Int64
  rw [int64Text_eq i h]
  cases w.prefix_ .TYPE_INT64 <;> rfl

/-! ## Reading a decimal representation back -/

theorem digitChar_val (d : Nat) (h : d < 10) : (digitChar d).val = 48 + d := by
  unfold digitChar
  simp [Fin.ofNat]
  omega

theorem readDecimal_append (l : List Byte) (b : Byte) :
    readDecimal (l ++ [b]) = 10 * readDecimal l + (b.val - 48) := by
  unfold readDecimal
  rw [List.foldl_append]
  rfl

theorem readDecimal_decimal (n : Nat) : readDecimal (decimal n) = n := by
  induction n using Nat.strong_induction_on with
  | _ n ih =>
    by_cases h : n < 10
    · rw [decimal_lt_ten n h]
      simp [readDecimal, digitChar_val n h]
    · rw [decimal_ge_ten n (by omega), readDecimal_append, ih (n / 10) (by omega),
        digitChar_val (n % 10) (Nat.mod_lt _ (by decide))]
      omega

theorem decimal_isdigit (n : Nat) : ∀ b ∈ decimal n, isdigit b = true := by
  induction n using Nat.strong_induction_on with
  | _ n ih =>
    have hd : ∀ d, d < 10 → isdigit (digitChar d) = true := by
      intro d hd
      simp [isdigit, digitChar_val d hd]
      omega
    by_cases h : n < 10
    · rw [decimal_lt_ten n h]
      intro b hb
      simp at hb
      subst hb
      exact hd n h
    · rw [decimal_ge_ten n (by omega)]
      intro b hb
      rcases List.mem_append.1 hb with hb | hb
      · exact ih (n / 10) (by omega) b hb
      · simp at hb
        subst hb
        exact hd _ (Nat.mod_lt _ (by decide))

theorem decimal_head (n : Nat) : (decimal n).head? = some 48 → n = 0 := by
  induction n using Nat.strong_induction_on with
  | _ n ih =>
    by_cases h : n < 10
    · rw [decimal_lt_ten n h]
      intro hh
      simp only [List.head?_cons, Option.some.injEq] at hh
      have := digitChar_val n h
      rw [hh] at this
      have e : ((48 : Byte) : Nat) = 48 := rfl
      omega
    · rw [decimal_ge_ten n (by omega)]
      intro hh
      have hpos := decimal_length_pos (n / 10)
      cases hd : decimal (n / 10) with
      | nil => rw [hd] at hpos; simp at hpos
      | cons a l =>
        rw [hd] at hh
        simp only [List.cons_append, List.head?_cons, Option.some.injEq] at hh
        have := ih (n / 10) (by omega) (by rw [hd, hh]; rfl)
        omega

theorem readInt_decimalInt (i : Int) : readInt (decimalInt i) = i := by
  unfold decimalInt
  by_cases hi : i < 0
  · rw [if_pos hi]
    simp only [readInt, if_true, readDecimal_decimal]
    omega
  · rw [if_neg hi]
    have hpos := decimal_length_pos i.natAbs
    have hdig := decimal_isdigit i.natAbs
    cases hd : decimal i.natAbs with
    | nil => rw [hd] at hpos; simp at hpos
    | cons a l =>
      have ha : isdigit a = true := hdig a (by rw [hd]; simp)
      have hne : a ≠ 45 := by
        intro h
        subst h
        revert ha
        decide
      simp only [readInt, if_neg hne]
      rw [← hd, readDecimal_decimal]
      omega

/-! ## `Writer::String` -/

set_option maxRecDepth 100000 in
theorem escapeChar_eq : ∀ b : Byte, escapeChar b = escaped b := by decide

theorem Writer.foldl_put (f : Byte → List Byte) (s : List Byte) (w : Writer) :
    s.foldl (fun acc c => acc.put (f c)) w = w.put (s.flatMap f) := by
  induction s generalizing w with
  | nil => simp [Writer.put]
  | cons c s ih =>
    simp only [List.foldl_cons, ih, List.flatMap_cons]
    simp [Writer.put]

theorem Writer.String_eq (w : Writer) (s : List Byte) :
    w.String s = (w.prefix_ .TYPE_STRING).map fun w1 => w1.put (quoted s) := by
  unfold Writer.String
  have hf : (fun (acc : Writer) c => acc.put (escapeChar c))
      = (fun (acc : Writer) c => acc.put (escaped c)) := by
    funext acc c
    rw [escapeChar_eq]
  rw [hf]
  cases w.prefix_ .TYPE_STRING with
  | none => rfl
  | some w1 =>
    simp only [Option.map_some', Writer.foldl_put]
    simp [Writer.put, quoted]

/-! ## The state machine -/

theorem Writer.run_append (w : Writer) (a b : List Event) :
    w.run (a ++ b) = (w.run a).bind fun w1 => w1.run b := by
  induction a generalizing w with
  | nil => rfl
  | cons e a ih =>
    simp only [List.cons_append, Writer.run]
    cases w.handle e with
    | none => rfl
    | some w1 => exact ih w1

theorem Writer.prefix_empty (w : Writer) (t : ValueType) (h : w.stack_ = []) :
    w.prefix_ t = if w.seeValue_ = true then none else some ⟨[], w.os_, true⟩ := by
  obtain ⟨st, os, sv⟩ := w
  simp only at h
  subst h
  cases sv <;> simp [Writer.prefix_]

theorem Writer.prefix_array (w : Writer) (t : ValueType) (k : Nat) (rest : List Level)
    (h : w.stack_ = ⟨true, k⟩ :: rest) :
    w.prefix_ t = some ⟨⟨true, k + 1⟩ :: rest, w.os_ ++ arraySep k, true⟩ := by
  obtain ⟨st, os, sv⟩ := w
  simp only at h
  subst h
  by_cases hk : k > 0 <;> simp [Writer.prefix_, arraySep, Writer.put, hk]

theorem Writer.prefix_object (w : Writer) (t : ValueType) (k : Nat) (rest : List Level)
    (h : w.stack_ = ⟨false, k⟩ :: rest) :
    w.prefix_ t = if k % 2 = 1 ∨ t = .TYPE_STRING
      then some ⟨⟨false, k + 1⟩ :: rest, w.os_ ++ objectSep k, true⟩ else none := by
  obtain ⟨st, os, sv⟩ := w
  simp only at h
  subst h
  by_cases hk : k % 2 = 1
  · simp [Writer.prefix_, objectSep, Writer.put, hk]
  · by_cases ht : t = .TYPE_STRING
    · by_cases h0 : k > 0 <;> simp [Writer.prefix_, objectSep, Writer.put, hk, ht, h0]
    · simp [Writer.prefix_, objectSep, Writer.put, hk, ht]

theorem Writer.fresh_prefix (t : ValueType) : Writer.fresh.prefix_ t = some ⟨[], [], true⟩ := by
  cases t <;> rfl

theorem Event.ownText_eq (e : Event) :
    e.ownText = match e with
      | .Null => some (str "null")
      | .Bool b => some (if b then str "true" else str "false")
      | .Int32 i => int32Text i
      | .Int64 i => int64Text i
      | .Double d => doubleText d
      | .String s => some (quoted s)
      | .Key s => some ([34] ++ s ++ [34])
      | .StartObject => some [123]
      | .StartArray => some [91]
      | .EndObject => none
      | .EndArray => none := by
  cases e with
  | Null => simp [Event.ownText, Writer.handle, Writer.Null, Writer.fresh_prefix, Writer.put]
  | Bool b => simp [Event.ownText, Writer.handle, Writer.Bool, Writer.fresh_prefix, Writer.put]
  | Int32 i =>
    simp only [Event.ownText, Writer.handle, Writer.Int32, Writer.fresh_prefix]
    cases int32Text i <;> simp [Writer.put]
  | Int64 i =>
    simp only [Event.ownText, Writer.handle, Writer.Int64, Writer.fresh_prefix]
    cases int64Text i <;> simp [Writer.put]
  | Double d =>
    simp only [Event.ownText, Writer.handle, Writer.Double, Writer.fresh_prefix]
    cases doubleText d <;> simp [Writer.put]
  | String s =>
    simp [Event.ownText, Writer.handle, Writer.String_eq, Writer.fresh_prefix, Writer.put]
  | Key s => simp [Event.ownText, Writer.handle, Writer.Key, Writer.fresh_prefix, Writer.put]
  | StartObject =>
    simp [Event.ownText, Writer.handle, Writer.StartObject, Writer.fresh_prefix, Writer.put]
  | StartArray =>
    simp [Event.ownText, Writer.handle, Writer.StartArray, Writer.fresh_prefix, Writer.put]
  | EndObject => rfl
  | EndArray => rfl

/-- Every method that calls `prefix` is `prefix`, then the push of the levels
the event opens, then the put of the own text of the event. -/
theorem Writer.handle_eq (w : Writer) (e : Event) (t : ValueType) (ht : e.type = some t) :
    w.handle e = match w.prefix_ t, e.ownText with
      | some w1, some txt =>
        some (({ w1 with stack_ := e.opened ++ w1.stack_ } : Writer).put txt)
      | _, _ => none := by
  rw [Event.ownText_eq]
  cases e with
  | Null =>
    cases ht
    simp only [Writer.handle, Writer.Null, Event.opened]
    cases w.prefix_ .TYPE_NULL <;> rfl
  | Bool b =>
    cases ht
    simp only [Writer.handle, Writer.Bool, Event.opened]
    cases w.prefix_ .TYPE_BOOL <;> rfl
  | Int32 i =>
    cases ht
    simp only [Writer.handle, Writer.Int32, Event.opened]
    cases w.prefix_ .TYPE_INT32 with
    | none => rfl
    | some w1 => cases int32Text i <;> rfl
  | Int64 i =>
    cases ht
    simp only [Writer.handle, Writer.Int64, Event.opened]
    cases w.prefix_ .TYPE_INT64 with
    | none => rfl
    | some w1 => cases int64Text i <;> rfl
  | Double d =>
    cases ht
    simp only [Writer.handle, Writer.Double, Event.opened]
    cases w.prefix_ .TYPE_DOUBLE with
    | none => rfl
    | some w1 => cases doubleText d <;> rfl
  | String s =>
    cases ht
    simp only [Writer.handle, Writer.String_eq, Event.opened]
    cases w.prefix_ .TYPE_STRING <;> rfl
  | Key s =>
    cases ht
    simp only [Writer.handle, Writer.Key, Event.opened]
    cases w.prefix_ .TYPE_STRING with
    | none => rfl
    | some w1 => simp [Writer.put]
  | StartObject =>
    cases ht
    simp only [Writer.handle, Writer.StartObject, Event.opened]
    cases w.prefix_ .TYPE_OBJECT <;> rfl
  | StartArray =>
    cases ht
    simp only [Writer.handle, Writer.StartArray, Event.opened]
    cases w.prefix_ .TYPE_ARRAY <;> rfl
  | EndObject => cases ht
  | EndArray => cases ht

/-! ## Value trees through the `Writer` -/

theorem joinFrom_succ (k : Nat) (ts : List (List Byte)) :
    joinFrom (k + 1) ts = (ts.map fun t => [44] ++ t).flatten := by
  induction ts generalizing k with
  | nil => rfl
  | cons t ts ih =>
    simp only [joinFrom, List.map_cons, List.flatten_cons, ih]
    simp [arraySep]

theorem intercalate_cons (sep t : List Byte) (ts : List (List Byte)) :
    List.intercalate sep (t :: ts) = t ++ (ts.map fun u => sep ++ u).flatten := by
  induction ts generalizing t with
  | nil => simp [List.intercalate]
  | cons u ts ih =>
    have := ih u
    simp only [List.intercalate, List.intersperse, List.flatten_cons, List.map_cons] at this ⊢
    rw [this]
    simp

theorem joinFrom_zero (ts : List (List Byte)) : joinFrom 0 ts = List.intercalate [44] ts := by
  cases ts with
  | nil => rfl
  | cons t ts =>
    rw [intercalate_cons]
    simp only [joinFrom, joinFrom_succ]
    simp [arraySep]

theorem Writer.prefix_seeValue (w w1 : Writer) (t : ValueType) (h : w.prefix_ t = some w1) :
    w1.seeValue_ = true := by
  obtain ⟨st, os, sv⟩ := w
  cases st with
  | nil =>
    rw [Writer.prefix_empty _ t rfl] at h
    split at h
    · cases h
    · cases h; rfl
  | cons top rest =>
    obtain ⟨ia, k⟩ := top
    cases ia with
    | true =>
      rw [Writer.prefix_array _ t k rest rfl] at h
      cases h; rfl
    | false =>
      rw [Writer.prefix_object _ t k rest rfl] at h
      split at h
      · cases h; rfl
      · cases h

theorem objectSep_even (k : Nat) : objectSep (2 * k) = arraySep k := by
  unfold objectSep arraySep
  have : ¬ (2 * k % 2 = 1) := by omega
  rw [if_neg this]
  by_cases h : k > 0
  · rw [if_pos h, if_pos (by omega)]
  · rw [if_neg h, if_neg (by omega)]

theorem objectSep_odd (k : Nat) : objectSep (2 * k + 1) = [58] := by
  unfold objectSep
  rw [if_pos (by omega)]

theorem Writer.run_singleton (w : Writer) (e : Event) : w.run [e] = w.handle e := by
  simp only [Writer.run]
  cases w.handle e <;> rfl

mutual
theorem Value.run_events (v : Value) (hv : v.wf) (w : Writer) :
    w.run v.events = (w.prefix_ v.type).map fun w1 => w1.put v.compact := by
  match v, hv with
  | .null, _ =>
    simp only [Value.events, Writer.run_singleton, Writer.handle, Writer.Null, Value.type,
      Value.compact]
  | .bool b, _ =>
    simp only [Value.events, Writer.run_singleton, Writer.handle, Writer.Bool, Value.type,
      Value.compact]
  | .int32 i, hv =>
    simp only [Value.wf] at hv
    simp only [Value.events, Writer.run_singleton, Writer.handle, Writer.Int32_eq w i hv,
      Value.type, Value.compact]
  | .int64 i, hv =>
    simp only [Value.wf] at hv
    simp only [Value.events, Writer.run_singleton, Writer.handle, Writer.Int64_eq w i hv,
      Value.type, Value.compact]
  | .double d, hv =>
    simp only [Value.wf] at hv
    obtain ⟨t, ht⟩ := Option.isSome_iff_exists.1 hv
    simp only [Value.events, Writer.run_singleton, Writer.handle, Writer.Double, Value.type,
      Value.compact, ht]
    cases w.prefix_ .TYPE_DOUBLE <;> rfl
  | .string s, _ =>
    simp only [Value.events, Writer.run_singleton, Writer.handle, Writer.String_eq, Value.type,
      Value.compact]
  | .array elems, hv =>
    simp only [Value.wf] at hv
    simp only [Value.events, Writer.run, Writer.handle, Writer.StartArray, Value.type,
      Value.compact, List.append_eq]
    cases hp : w.prefix_ .TYPE_ARRAY with
    | none => rfl
    | some w1 =>
      have hsv := Writer.prefix_seeValue w w1 _ hp
      obtain ⟨st, os, sv⟩ := w1
      simp only at hsv
      subst hsv
      simp only [Option.map_some']
      rw [Writer.run_append,
        Value.run_elemEvents elems hv (Writer.put ⟨⟨true, 0⟩ :: st, os, true⟩ [91]) 0 st rfl rfl]
      simp only [Option.some_bind, Writer.run_singleton, Writer.handle, Writer.EndArray]
      simp [Writer.put, joinFrom_zero]
  | .object members, hv =>
    simp only [Value.wf] at hv
    simp only [Value.events, Writer.run, Writer.handle, Writer.StartObject, Value.type,
      Value.compact, List.append_eq]
    cases hp : w.prefix_ .TYPE_OBJECT with
    | none => rfl
    | some w1 =>
      have hsv := Writer.prefix_seeValue w w1 _ hp
      obtain ⟨st, os, sv⟩ := w1
      simp only at hsv
      subst hsv
      simp only [Option.map_some']
      rw [Writer.run_append,
        Value.run_memberEvents members hv (Writer.put ⟨⟨false, 0⟩ :: st, os, true⟩ [123]) 0 st
          rfl rfl]
      simp only [Option.some_bind, Writer.run_singleton, Writer.handle, Writer.EndObject]
      simp [Writer.put, joinFrom_zero]
theorem Value.run_elemEvents (es : List Value) (hes : Value.wfElems es) (w : Writer)
    (k : Nat) (rest : List Level) (hst : w.stack_ = ⟨true, k⟩ :: rest)
    (hsv : w.seeValue_ = true) :
    w.run (Value.elemEvents es)
      = some ⟨⟨true, k + es.length⟩ :: rest,
              w.os_ ++ joinFrom k (Value.compactElems es), true⟩ := by
  match es, hes with
  | [], _ =>
    obtain ⟨st, os, sv⟩ := w
    simp only at hst hsv
    subst hst hsv
    simp [Value.elemEvents, Writer.run, Value.compactElems, joinFrom]
  | v :: r, hes =>
    simp only [Value.wfElems] at hes
    simp only [Value.elemEvents, Value.compactElems, joinFrom]
    rw [Writer.run_append, Value.run_events v hes.1 w, Writer.prefix_array w _ k rest hst]
    simp only [Option.map_some', Option.some_bind]
    rw [Value.run_elemEvents r hes.2 _ (k + 1) rest rfl rfl]
    simp [Writer.put, Nat.add_assoc, Nat.add_comm 1]
theorem Value.run_memberEvents (ms : List (List Byte × Value)) (hms : Value.wfMembers ms)
    (w : Writer) (k : Nat) (rest : List Level) (hst : w.stack_ = ⟨false, 2 * k⟩ :: rest)
    (hsv : w.seeValue_ = true) :
    w.run (Value.memberEvents ms)
      = some ⟨⟨false, 2 * (k + ms.length)⟩ :: rest,
              w.os_ ++ joinFrom k (Value.compactMembers ms), true⟩ := by
  match ms, hms with
  | [], _ =>
    obtain ⟨st, os, sv⟩ := w
    simp only at hst hsv
    subst hst hsv
    simp [Value.memberEvents, Writer.run, Value.compactMembers, joinFrom]
  | (key, v) :: r, hms =>
    simp only [Value.wfMembers] at hms
    simp only [Value.memberEvents, Value.compactMembers, joinFrom, Writer.run, Writer.handle,
      Writer.Key, List.append_eq]
    rw [Writer.prefix_object w _ (2 * k) rest hst]
    simp only [or_true, if_true, Option.map_some']
    rw [Writer.run_append, Value.run_events v hms.1 _,
      Writer.prefix_object _ _ (2 * k + 1) rest rfl]
    rw [if_pos (Or.inl (by omega))]
    simp only [Option.map_some', Option.some_bind]
    rw [Value.run_memberEvents r hms.2 _ (k + 1) rest rfl rfl]
    simp [Writer.put, objectSep_even, objectSep_odd, Nat.add_assoc, Nat.add_comm 1]
end

/-! ## Acceptance -/

theorem Writer.handle_typed (w w1 : Writer) (e : Event) (t : ValueType)
    (ht : e.type = some t) (h : w.handle e = some w1) :
    ∃ w0 txt, w.prefix_ t = some w0 ∧ e.ownText = some txt ∧
      w1 = ⟨e.opened ++ w0.stack_, w0.os_ ++ txt, w0.seeValue_⟩ := by
  rw [Writer.handle_eq w e t ht] at h
  cases hp : w.prefix_ t with
  | none => rw [hp] at h; cases h
  | some w0 =>
    cases ho : e.ownText with
    | none => rw [hp, ho] at h; cases h
    | some txt =>
      rw [hp, ho] at h
      simp only [Option.some.injEq] at h
      exact ⟨w0, txt, rfl, rfl, by rw [← h]; rfl⟩

theorem Event.type_none (e : Event) (h : e.type = none) : e = .EndObject ∨ e = .EndArray := by
  cases e <;> simp [Event.type] at h ⊢

theorem Writer.handle_seeValue (w w1 : Writer) (e : Event) (h : w.handle e = some w1)
    (hs : w.seeValue_ = true ∨ w.stack_ = []) : w1.seeValue_ = true := by
  cases ht : e.type with
  | some t =>
    obtain ⟨w0, txt, hp, _, rfl⟩ := Writer.handle_typed w w1 e t ht h
    exact Writer.prefix_seeValue w w0 t hp
  | none =>
    obtain ⟨st, os, sv⟩ := w
    rcases Event.type_none e ht with rfl | rfl
    · cases st with
      | nil => cases h
      | cons top rest =>
        simp only [Writer.handle, Writer.EndObject] at h
        split at h
        · cases h
        · cases h
          rcases hs with hs | hs
          · exact hs
          · cases hs
    · cases st with
      | nil => cases h
      | cons top rest =>
        simp only [Writer.handle, Writer.EndArray] at h
        split at h
        · cases h
          rcases hs with hs | hs
          · exact hs
          · cases hs
        · cases h

theorem Writer.run_seeValue (es : List Event) (w w1 : Writer) (h : w.run es = some w1)
    (hs : w.seeValue_ = true) : w1.seeValue_ = true := by
  induction es generalizing w with
  | nil => cases h; exact hs
  | cons e es ih =>
    simp only [Writer.run] at h
    cases he : w.handle e with
    | none => rw [he] at h; cases h
    | some w0 =>
      rw [he] at h
      exact ih w0 h (Writer.handle_seeValue w w0 e he (Or.inl hs))

theorem Writer.handle_after_root (w : Writer) (e : Event) (hst : w.stack_ = [])
    (hsv : w.seeValue_ = true) : w.handle e = none := by
  cases ht : e.type with
  | some t =>
    rw [Writer.handle_eq w e t ht, Writer.prefix_empty w t hst, if_pos hsv]
  | none =>
    obtain ⟨st, os, sv⟩ := w
    simp only at hst
    subst hst
    rcases Event.type_none e ht with rfl | rfl <;> rfl

/-! ## Depth of the context stack -/

theorem Writer.prefix_length (w w0 : Writer) (t : ValueType) (h : w.prefix_ t = some w0) :
    w0.stack_.length = w.stack_.length := by
  obtain ⟨st, os, sv⟩ := w
  cases st with
  | nil =>
    rw [Writer.prefix_empty _ t rfl] at h
    split at h
    · cases h
    · cases h; rfl
  | cons top rest =>
    obtain ⟨ia, k⟩ := top
    cases ia with
    | true =>
      rw [Writer.prefix_array _ t k rest rfl] at h
      cases h; rfl
    | false =>
      rw [Writer.prefix_object _ t k rest rfl] at h
      split at h
      · cases h; rfl
      · cases h

theorem Writer.handle_depth (w w1 : Writer) (e : Event) (h : w.handle e = some w1) :
    w1.stack_.length + (if isEnd e = true then 1 else 0)
      = w.stack_.length + (if isStart e = true then 1 else 0) := by
  cases ht : e.type with
  | some t =>
    obtain ⟨w0, txt, hp, _, rfl⟩ := Writer.handle_typed w w1 e t ht h
    have hl := Writer.prefix_length w w0 t hp
    cases e <;> simp [Event.type] at ht <;> simp [isEnd, isStart, Event.opened, hl]
  | none =>
    obtain ⟨st, os, sv⟩ := w
    rcases Event.type_none e ht with rfl | rfl
    · cases st with
      | nil => cases h
      | cons top rest =>
        simp only [Writer.handle, Writer.EndObject] at h
        split at h
        · cases h
        · cases h
          simp [isEnd, isStart, Writer.put]
    · cases st with
      | nil => cases h
      | cons top rest =>
        simp only [Writer.handle, Writer.EndArray] at h
        split at h
        · cases h
          simp [isEnd, isStart, Writer.put]
        · cases h

theorem Writer.run_depth (es : List Event) (w w1 : Writer) (h : w.run es = some w1) :
    w1.stack_.length + es.countP isEnd = w.stack_.length + es.countP isStart := by
  induction es generalizing w with
  | nil => cases h; simp
  | cons e es ih =>
    simp only [Writer.run] at h
    cases he : w.handle e with
    | none => rw [he] at h; cases h
    | some w0 =>
      rw [he] at h
      have h1 := ih w0 h
      have h2 := Writer.handle_depth w w0 e he
      simp only [List.countP_cons]
      omega

theorem Writer.run_take (es : List Event) (n : Nat) (w w1 : Writer) (h : w.run es = some w1) :
    ∃ w2, w.run (es.take n) = some w2 := by
  rw [← List.take_append_drop n es, Writer.run_append] at h
  cases h2 : w.run (es.take n) with
  | none => rw [h2] at h; cases h
  | some w2 => exact ⟨w2, rfl⟩

theorem Writer.prefix_congr (w : Writer) (t1 t2 : ValueType)
    (h1 : t1 ≠ .TYPE_STRING) (h2 : t2 ≠ .TYPE_STRING) : w.prefix_ t1 = w.prefix_ t2 := by
  obtain ⟨st, os, sv⟩ := w
  cases st with
  | nil => rw [Writer.prefix_empty _ t1 rfl, Writer.prefix_empty _ t2 rfl]
  | cons top rest =>
    obtain ⟨ia, k⟩ := top
    cases ia with
    | true => rw [Writer.prefix_array _ t1 k rest rfl, Writer.prefix_array _ t2 k rest rfl]
    | false =>
      rw [Writer.prefix_object _ t1 k rest rfl, Writer.prefix_object _ t2 k rest rfl]
      simp [h1, h2]

/-! ## The stack follows the open containers -/

/-- The effect of `prefix` on the context stack: the count of the top level,
if there is one, goes up by one. -/
theorem Writer.prefix_stack (w w0 : Writer) (t : ValueType) (h : w.prefix_ t = some w0) :
    w0.stack_ = match w.stack_ with
      | [] => []
      | top :: rest => ⟨top.inArray, top.valueCount + 1⟩ :: rest := by
  obtain ⟨st, os, sv⟩ := w
  cases st with
  | nil =>
    rw [Writer.prefix_empty _ t rfl] at h
    split at h
    · cases h
    · cases h; rfl
  | cons top rest =>
    obtain ⟨ia, k⟩ := top
    cases ia with
    | true =>
      rw [Writer.prefix_array _ t k rest rfl] at h
      cases h; rfl
    | false =>
      rw [Writer.prefix_object _ t k rest rfl] at h
      split at h
      · cases h; rfl
      · cases h

theorem Writer.handle_track (w w1 : Writer) (e : Event) (ctx : List OpenContext)
    (h : w.handle e = some w1) (hst : w.stack_ = ctx.map OpenContext.level) :
    w1.stack_ = (trackStep ctx e).map OpenContext.level := by
  cases ht : e.type with
  | some t =>
    obtain ⟨w0, txt, hp, _, rfl⟩ := Writer.handle_typed w w1 e t ht h
    have hs := Writer.prefix_stack w w0 t hp
    rw [hst] at hs
    simp only [hs]
    cases ctx with
    | nil => cases e <;> simp [Event.type] at ht <;>
        simp [trackStep, isEnd, isStart, Event.opened, OpenContext.level]
    | cons top rest => cases e <;> simp [Event.type] at ht <;>
        simp [trackStep, isEnd, isStart, Event.opened, OpenContext.level]
  | none =>
    obtain ⟨st, os, sv⟩ := w
    simp only at hst
    subst hst
    rcases Event.type_none e ht with rfl | rfl
    · cases ctx with
      | nil => cases h
      | cons top rest =>
        simp only [Writer.handle, Writer.EndObject, List.map_cons] at h
        split at h
        · cases h
        · cases h
          simp [trackStep, isEnd, Writer.put]
    · cases ctx with
      | nil => cases h
      | cons top rest =>
        simp only [Writer.handle, Writer.EndArray, List.map_cons] at h
        split at h
        · cases h
          simp [trackStep, isEnd, Writer.put]
        · cases h

theorem Writer.run_track (es : List Event) (w w1 : Writer) (ctx : List OpenContext)
    (h : w.run es = some w1) (hst : w.stack_ = ctx.map OpenContext.level) :
    w1.stack_ = (es.foldl trackStep ctx).map OpenContext.level := by
  induction es generalizing w ctx with
  | nil => cases h; exact hst
  | cons e es ih =>
    simp only [Writer.run] at h
    cases he : w.handle e with
    | none => rw [he] at h; cases h
    | some w0 =>
      rw [he] at h
      exact ih w0 (trackStep ctx e) h (Writer.handle_track w w0 e ctx he hst)

theorem trackStep_sound (ctx : List OpenContext) (e : Event)
    (h : ∀ c ∈ ctx, c.sound) : ∀ c ∈ trackStep ctx e, c.sound := by
  unfold trackStep
  by_cases hend : isEnd e = true
  · rw [if_pos hend]
    intro c hc
    exact h c (List.mem_of_mem_tail hc)
  · rw [if_neg hend]
    have h1 : ∀ c ∈ (match ctx with
        | [] => []
        | top :: rest => { top with direct := top.direct ++ [e] } :: rest), c.sound := by
      cases ctx with
      | nil => intro c hc; cases hc
      | cons top rest =>
        intro c hc
        simp only [List.mem_cons] at hc
        rcases hc with rfl | hc
        · refine ⟨(h top (by simp)).1, ?_⟩
          intro x hx
          simp only [List.mem_append, List.mem_singleton] at hx
          rcases hx with hx | rfl
          · exact (h top (by simp)).2 x hx
          · simpa using hend
        · exact h c (by simp [hc])
    by_cases hs : isStart e = true
    · simp only [hs, if_true]
      intro c hc
      simp only [List.mem_cons] at hc
      rcases hc with rfl | hc
      · exact ⟨hs, by simp⟩
      · exact h1 c hc
    · simp only [hs]
      exact h1

theorem foldl_trackStep_sound (es : List Event) (ctx : List OpenContext)
    (h : ∀ c ∈ ctx, c.sound) : ∀ c ∈ es.foldl trackStep ctx, c.sound := by
  induction es generalizing ctx with
  | nil => exact h
  | cons e es ih => exact ih (trackStep ctx e) (trackStep_sound ctx e h)

/-! ## Decoding what `Writer::String` puts -/

set_option maxRecDepth 100000 in
theorem hex4_upperHex : ∀ b : Byte, b.val < 0x20 →
    hex4 0x30 0x30 (upperHex.getD (b.val / 16) 0) (upperHex.getD (b.val % 16) 0)
      = some b.val := by
  decide

set_option maxRecDepth 100000 in
theorem utf8Encode_ascii : ∀ b : Byte, b.val < 0x80 → utf8Encode b.val = [b] := by
  decide

theorem parseStringBody_raw (b : Byte) (tail : List Byte)
    (h1 : b ≠ 0x22) (h2 : b ≠ 0x5C) (h3 : ¬ b.val < 0x20) :
    parseStringBody (b :: tail) = prependDecoded [b] (parseStringBody tail) := by
  rw [parseStringBody]
  simp only [h1, h2, h3, if_false]

theorem parseStringBody_simple (c x : Byte) (tail : List Byte)
    (hc : c ≠ 0x75) (hx : simpleEscape c = some x) :
    parseStringBody (0x5C :: c :: tail) = prependDecoded [x] (parseStringBody tail) := by
  rw [parseStringBody]
  have h1 : ¬ ((0x5C : Byte) = 0x22) := by decide
  simp only [h1, if_false, if_true]
  rw [parseEscape]
  simp only [hc, if_false, hx]

theorem parseStringBody_u00 (b : Byte) (tail : List Byte) (hb : b.val < 0x20) :
    parseStringBody (0x5C :: 0x75 :: 0x30 :: 0x30 :: upperHex.getD (b.val / 16) 0 ::
        upperHex.getD (b.val % 16) 0 :: tail)
      = prependDecoded [b] (parseStringBody tail) := by
  rw [parseStringBody]
  have h1 : ¬ ((0x5C : Byte) = 0x22) := by decide
  have h2 : ¬ (0xD800 ≤ b.val ∧ b.val ≤ 0xDBFF) := by omega
  have h3 : ¬ (0xDC00 ≤ b.val ∧ b.val ≤ 0xDFFF) := by omega
  simp only [h1, if_false, if_true]
  rw [parseEscape]
  simp only [if_true]
  rw [parseUnicode]
  simp only [hex4_upperHex b hb, h2, h3, if_false, utf8Encode_ascii b (by omega)]

theorem parseStringBody_escaped (b : Byte) (tail : List Byte) :
    parseStringBody (escaped b ++ tail) = prependDecoded [b] (parseStringBody tail) := by
  unfold escaped
  split_ifs with h1 h2 h3 h4 h5 h6 h7 h8
  · subst h1; exact parseStringBody_simple 0x22 0x22 tail (by decide) (by decide)
  · subst h2; exact parseStringBody_simple 0x5C 0x5C tail (by decide) (by decide)
  · subst h3; exact parseStringBody_simple 0x62 0x08 tail (by decide) (by decide)
  · subst h4; exact parseStringBody_simple 0x66 0x0C tail (by decide) (by decide)
  · subst h5; exact parseStringBody_simple 0x6E 0x0A tail (by decide) (by decide)
  · subst h6; exact parseStringBody_simple 0x72 0x0D tail (by decide) (by decide)
  · subst h7; exact parseStringBody_simple 0x74 0x09 tail (by decide) (by decide)
  · exact parseStringBody_u00 b tail h8
  · exact parseStringBody_raw b tail h1 h2 h8

theorem parseStringBody_body (s rest : List Byte) :
    parseStringBody (s.flatMap escaped ++ 0x22 :: rest) = .ok (s, rest) := by
  induction s with
  | nil =>
    simp only [List.flatMap_nil, List.nil_append]
    rw [parseStringBody]
    simp
  | cons b s ih =>
    simp only [List.flatMap_cons, List.append_assoc]
    rw [parseStringBody_escaped, ih]
    rfl

theorem unescape_body (s : List Byte) : unescape (s.flatMap escaped) = some s := by
  unfold unescape
  rw [parseStringBody_body]

set_option maxRecDepth 100000 in
theorem escaped_all_printable : ∀ b : Byte,
    (escaped b).all (fun c => decide (0x20 ≤ c.val)) = true := by
  decide

theorem escaped_no_control (b c : Byte) (h : c ∈ escaped b) : 0x20 ≤ c.val := by
  have := List.all_eq_true.1 (escaped_all_printable b) c h
  simpa using this

theorem body_no_control (s : List Byte) : ∀ c ∈ s.flatMap escaped, 0x20 ≤ c.val := by
  intro c hc
  obtain ⟨b, _, hb⟩ := List.mem_flatMap.1 hc
  exact escaped_no_control b c hb

/-! ## The Reader model always returns -/

theorem skipWhitespace_length (t : List Byte) : (skipWhitespace t).length ≤ t.length := by
  induction t with
  | nil => simp [skipWhitespace]
  | cons b t ih =>
    simp only [skipWhitespace]
    split
    · simp only [List.length_cons]; omega
    · simp

theorem spanDigits_length (t : List Byte) : (spanDigits t).2.length ≤ t.length := by
  induction t with
  | nil => simp [spanDigits]
  | cons b t ih =>
    simp only [spanDigits]
    split
    · simp only [List.length_cons]; omega
    · simp

theorem prependDecoded_ok (bs s r : List Byte) (x : Except ParseError (List Byte × List Byte))
    (h : prependDecoded bs x = .ok (s, r)) : ∃ s1, x = .ok (s1, r) := by
  cases x with
  | error e => simp [prependDecoded] at h
  | ok p =>
    obtain ⟨s1, r1⟩ := p
    simp only [prependDecoded, Except.ok.injEq, Prod.mk.injEq] at h
    exact ⟨s1, by rw [h.2]⟩

mutual
theorem parseStringBody_length (t s r : List Byte) (h : parseStringBody t = .ok (s, r)) :
    r.length < t.length := by
  match t with
  | [] => simp [parseStringBody] at h
  | b :: rest =>
    rw [parseStringBody] at h
    split at h
    · simp only [Except.ok.injEq, Prod.mk.injEq] at h
      rw [← h.2]; simp
    · split at h
      · have := parseEscape_length rest s r h
        simp only [List.length_cons]; omega
      · split at h
        · cases h
        · obtain ⟨s1, h1⟩ := prependDecoded_ok _ _ _ _ h
          have := parseStringBody_length rest s1 r h1
          simp only [List.length_cons]; omega
theorem parseEscape_length (t s r : List Byte) (h : parseEscape t = .ok (s, r)) :
    r.length < t.length := by
  match t with
  | [] => simp [parseEscape] at h
  | c :: rest =>
    rw [parseEscape] at h
    split at h
    · have := parseUnicode_length rest s r h
      simp only [List.length_cons]; omega
    · split at h
      · obtain ⟨s1, h1⟩ := prependDecoded_ok _ _ _ _ h
        have := parseStringBody_length rest s1 r h1
        simp only [List.length_cons]; omega
      · cases h
theorem parseUnicode_length (t s r : List Byte) (h : parseUnicode t = .ok (s, r)) :
    r.length < t.length := by
  match t with
  | h1 :: h2 :: h3 :: h4 :: rest =>
    rw [parseUnicode] at h
    split at h
    · cases h
    · split at h
      · have := parseLowSurrogate_length _ rest s r h
        simp only [List.length_cons]; omega
      · split at h
        · cases h
        · obtain ⟨s1, h1⟩ := prependDecoded_ok _ _ _ _ h
          have := parseStringBody_length rest s1 r h1
          simp only [List.length_cons]; omega
  | [] => simp [parseUnicode] at h
  | [_] => simp [parseUnicode] at h
  | [_, _] => simp [parseUnicode] at h
  | [_, _, _] => simp [parseUnicode] at h
theorem parseLowSurrogate_length (hi : Nat) (t s r : List Byte)
    (h : parseLowSurrogate hi t = .ok (s, r)) : r.length < t.length := by
  match t with
  | b1 :: b2 :: l1 :: l2 :: l3 :: l4 :: rest =>
    rw [parseLowSurrogate] at h
    split at h
    · split at h
      · cases h
      · split at h
        · obtain ⟨s1, h1⟩ := prependDecoded_ok _ _ _ _ h
          have := parseStringBody_length rest s1 r h1
          simp only [List.length_cons]; omega
        · cases h
    · cases h
  | [] => simp [parseLowSurrogate] at h
  | [_] => simp [parseLowSurrogate] at h
  | [_, _] => simp [parseLowSurrogate] at h
  | [_, _, _] => simp [parseLowSurrogate] at h
  | [_, _, _, _] => simp [parseLowSurrogate] at h
  | [_, _, _, _, _] => simp [parseLowSurrogate] at h
end

theorem numberInt_length (t ip r : List Byte) (h : numberInt t = some (ip, r)) :
    r.length < t.length := by
  cases t with
  | nil => simp [numberInt] at h
  | cons d rest =>
    simp only [numberInt] at h
    split at h
    · cases h
    · next hd =>
      split at h
      · simp only [Option.some.injEq, Prod.mk.injEq] at h
        rw [← h.2]; simp
      · simp only [Option.some.injEq] at h
        have h2 : r = (spanDigits (d :: rest)).2 := by rw [h]
        have hd2 : isdigit d = true := by simpa using hd
        rw [h2]
        simp only [spanDigits, hd2, if_true, List.length_cons]
        have := spanDigits_length rest
        omega

theorem numberFrac_length (t r : List Byte) (f : Bool) (h : numberFrac t = some (f, r)) :
    r.length ≤ t.length := by
  unfold numberFrac at h
  have hs := spanDigits_length t.tail
  simp only [List.length_tail] at hs
  by_cases h1 : t.head? = some 46
  · rw [if_pos h1] at h
    by_cases h2 : (spanDigits t.tail).1 = []
    · rw [if_pos h2] at h; cases h
    · rw [if_neg h2] at h
      simp only [Option.some.injEq, Prod.mk.injEq] at h
      rw [← h.2]
      omega
  · rw [if_neg h1] at h
    simp only [Option.some.injEq, Prod.mk.injEq] at h
    rw [← h.2]

theorem numberExp_length (t r : List Byte) (f : Bool) (h : numberExp t = some (f, r)) :
    r.length ≤ t.length := by
  unfold numberExp at h
  generalize hx : (if t.tail.head? = some 43 ∨ t.tail.head? = some 45
      then t.tail.tail else t.tail) = x at h
  have hxl : x.length ≤ t.length := by
    rw [← hx]
    split <;> simp only [List.length_tail] <;> omega
  have hs := spanDigits_length x
  by_cases h1 : t.head? = some 101 ∨ t.head? = some 69
  · rw [if_pos h1] at h
    by_cases h2 : (spanDigits x).1 = []
    · rw [if_pos h2] at h; cases h
    · rw [if_neg h2] at h
      simp only [Option.some.injEq, Prod.mk.injEq] at h
      rw [← h.2]
      omega
  · rw [if_neg h1] at h
    simp only [Option.some.injEq, Prod.mk.injEq] at h
    rw [← h.2]

theorem parseNumber_length (strtod : List Byte → DoubleArg) (text : List Byte)
    (h : (parseNumber strtod text).1 = .PARSE_OK) :
    (parseNumber strtod text).2.2.length < text.length := by
  unfold parseNumber at h ⊢
  have hsign : (if text.head? = some 45 then text.tail else text).length ≤ text.length := by
    split
    · simp only [List.length_tail]; omega
    · exact le_refl _
  cases h1 : numberInt (if text.head? = some 45 then text.tail else text) with
  | none => rw [h1] at h; cases h
  | some p1 =>
    obtain ⟨ip, t2⟩ := p1
    have l1 := numberInt_length _ ip t2 h1
    simp only [h1] at h ⊢
    cases h2 : numberFrac t2 with
    | none => rw [h2] at h; cases h
    | some p2 =>
      obtain ⟨f, t3⟩ := p2
      have l2 := numberFrac_length t2 t3 f h2
      simp only [h2] at h ⊢
      cases h3 : numberExp t3 with
      | none => rw [h3] at h; cases h
      | some p3 =>
        obtain ⟨e, t4⟩ := p3
        have l3 := numberExp_length t3 t4 e h3
        simp only [h3] at h ⊢
        omega

theorem parseLiteral_length (literal : List Byte) (e : Event) (text : List Byte)
    (hl : 0 < literal.length) (h : (parseLiteral literal e text).1 = .PARSE_OK) :
    (parseLiteral literal e text).2.2.length < text.length := by
  unfold parseLiteral at h ⊢
  split at h
  · next hp =>
    rw [if_pos hp]
    have := (List.isPrefixOf_iff_prefix.1 hp).length_le
    simp only [List.length_drop]
    omega
  · cases h

/-- With enough fuel every parser of the model returns, and a complete value,
element list or member list consumes input. -/
theorem parse_total (strtod : List Byte → DoubleArg) : ∀ fuel : Nat,
    (∀ text, 2 * text.length + 1 ≤ fuel →
      ∃ res, parseValue strtod fuel text = some res ∧
        (res.1 = .PARSE_OK → res.2.2.length < text.length)) ∧
    (∀ text, 2 * text.length + 2 ≤ fuel →
      ∃ res, parseElements strtod fuel text = some res ∧
        (res.1 = .PARSE_OK → res.2.2.length < text.length)) ∧
    (∀ text, 2 * text.length + 2 ≤ fuel →
      ∃ res, parseMembers strtod fuel text = some res ∧
        (res.1 = .PARSE_OK → res.2.2.length < text.length)) := by
  intro fuel
  induction fuel with
  | zero =>
    refine ⟨?_, ?_, ?_⟩ <;> intro text h <;> omega
  | succ fuel ih =>
    obtain ⟨ihV, ihE, ihM⟩ := ih
    refine ⟨?_, ?_, ?_⟩
    · intro text hf
      cases text with
      | nil => exact ⟨_, rfl, by intro h; cases h⟩
      | cons b rest =>
        have hws := skipWhitespace_length rest
        have hwt : (skipWhitespace rest).tail.length ≤ rest.length := by
          simp only [List.length_tail]; omega
        simp only [List.length_cons] at hf
        rw [parseValue]
        by_cases c1 : b = 110
        · rw [if_pos c1]
          exact ⟨_, rfl, parseLiteral_length _ _ _ (by decide)⟩
        rw [if_neg c1]
        by_cases c2 : b = 116
        · rw [if_pos c2]
          exact ⟨_, rfl, parseLiteral_length _ _ _ (by decide)⟩
        rw [if_neg c2]
        by_cases c3 : b = 102
        · rw [if_pos c3]
          exact ⟨_, rfl, parseLiteral_length _ _ _ (by decide)⟩
        rw [if_neg c3]
        by_cases c4 : b = 34
        · rw [if_pos c4]
          cases hs : parseStringBody rest with
          | error e => exact ⟨_, rfl, by intro _; simp⟩
          | ok p =>
            obtain ⟨s, r⟩ := p
            have := parseStringBody_length rest s r hs
            exact ⟨_, rfl, by intro _; simp only [List.length_cons]; omega⟩
        rw [if_neg c4]
        by_cases c5 : b = 91
        · rw [if_pos c5]
          by_cases c6 : (skipWhitespace rest).head? = some 93
          · rw [if_pos c6]
            exact ⟨_, rfl, by intro _; simp only [List.length_cons]; omega⟩
          · rw [if_neg c6]
            obtain ⟨res, he, hl⟩ := ihE (skipWhitespace rest) (by omega)
            obtain ⟨err, evs, r⟩ := res
            rw [he]
            refine ⟨_, rfl, ?_⟩
            intro h
            have := hl h
            simp only [List.length_cons] at this ⊢
            omega
        rw [if_neg c5]
        by_cases c7 : b = 123
        · rw [if_pos c7]
          by_cases c8 : (skipWhitespace rest).head? = some 125
          · rw [if_pos c8]
            exact ⟨_, rfl, by intro _; simp only [List.length_cons]; omega⟩
          · rw [if_neg c8]
            obtain ⟨res, he, hl⟩ := ihM (skipWhitespace rest) (by omega)
            obtain ⟨err, evs, r⟩ := res
            rw [he]
            refine ⟨_, rfl, ?_⟩
            intro h
            have := hl h
            simp only [List.length_cons] at this ⊢
            omega
        rw [if_neg c7]
        exact ⟨_, rfl, parseNumber_length strtod (b :: rest)⟩
    · intro text hf
      rw [parseElements]
      by_cases c0 : text = []
      · rw [if_pos c0]
        exact ⟨_, rfl, by intro h; cases h⟩
      rw [if_neg c0]
      obtain ⟨res, he, hl⟩ := ihV text (by omega)
      obtain ⟨err, evs, r⟩ := res
      rw [he]
      simp only at hl ⊢
      by_cases c1 : err ≠ .PARSE_OK
      · rw [if_pos c1]
        exact ⟨_, rfl, fun h => absurd h c1⟩
      rw [if_neg c1]
      have hok : err = .PARSE_OK := by simpa using c1
      have hr := hl hok
      have hws := skipWhitespace_length r
      have hws2 := skipWhitespace_length (skipWhitespace r).tail
      simp only [List.length_tail] at hws2
      by_cases c2 : (skipWhitespace r).head? = some 44
      · rw [if_pos c2]
        obtain ⟨res2, he2, hl2⟩ := ihE (skipWhitespace (skipWhitespace r).tail) (by omega)
        obtain ⟨err2, evs2, r2⟩ := res2
        rw [he2]
        refine ⟨_, rfl, ?_⟩
        intro h
        have := hl2 h
        simp only at this ⊢
        omega
      rw [if_neg c2]
      by_cases c3 : (skipWhitespace r).head? = some 93
      · rw [if_pos c3]
        exact ⟨_, rfl, by intro _; simp only [List.length_tail]; omega⟩
      rw [if_neg c3]
      exact ⟨_, rfl, by intro h; cases h⟩
    · intro text hf
      rw [parseMembers]
      by_cases c0 : text = []
      · rw [if_pos c0]
        exact ⟨_, rfl, by intro h; cases h⟩
      rw [if_neg c0]
      by_cases c1 : text.head? ≠ some 34
      · rw [if_pos c1]
        exact ⟨_, rfl, by intro h; cases h⟩
      rw [if_neg c1]
      have hpos : 0 < text.length := by
        cases text with
        | nil => exact absurd rfl c0
        | cons _ _ => simp
      cases hs : parseStringBody text.tail with
      | error e => exact ⟨_, rfl, by intro _; simp only [List.length_tail]; omega⟩
      | ok p =>
        obtain ⟨k, r⟩ := p
        have hk := parseStringBody_length text.tail k r hs
        simp only [List.length_tail] at hk
        have hws := skipWhitespace_length r
        have hws2 := skipWhitespace_length (skipWhitespace r).tail
        simp only [List.length_tail] at hws2
        simp only
        by_cases c2 : (skipWhitespace r).head? ≠ some 58
        · rw [if_pos c2]
          exact ⟨_, rfl, by intro h; cases h⟩
        rw [if_neg c2]
        obtain ⟨res, he, hl⟩ := ihV (skipWhitespace (skipWhitespace r).tail) (by omega)
        obtain ⟨err, evs, r1⟩ := res
        rw [he]
        simp only at hl ⊢
        by_cases c3 : err ≠ .PARSE_OK
        · rw [if_pos c3]
          exact ⟨_, rfl, fun h => absurd h c3⟩
        rw [if_neg c3]
        have hok : err = .PARSE_OK := by simpa using c3
        have hr := hl hok
        have hws3 := skipWhitespace_length r1
        have hws4 := skipWhitespace_length (skipWhitespace r1).tail
        simp only [List.length_tail] at hws4
        by_cases c4 : (skipWhitespace r1).head? = some 44
        · rw [if_pos c4]
          obtain ⟨res2, he2, hl2⟩ := ihM (skipWhitespace (skipWhitespace r1).tail) (by omega)
          obtain ⟨err2, evs2, r2⟩ := res2
          rw [he2]
          refine ⟨_, rfl, ?_⟩
          intro h
          have := hl2 h
          simp only at this ⊢
          omega
        rw [if_neg c4]
        by_cases c5 : (skipWhitespace r1).head? = some 125
        · rw [if_pos c5]
          exact ⟨_, rfl, by intro _; simp only [List.length_tail]; omega⟩
        rw [if_neg c5]
        exact ⟨_, rfl, by intro h; cases h⟩

/-- The Reader model returns a status for every input. -/
theorem Reader.parse_isSome (strtod : List Byte → DoubleArg) (text : List Byte) :
    ∃ r, Reader.parse strtod text = some r := by
  unfold Reader.parse
  split
  · exact ⟨_, rfl⟩
  · have hws := skipWhitespace_length text
    obtain ⟨res, he, _⟩ :=
      (parse_total strtod (2 * text.length + 2)).1 (skipWhitespace text) (by omega)
    obtain ⟨err, evs, r⟩ := res
    rw [he]
    simp only
    split
    · exact ⟨_, rfl⟩
    · split <;> exact ⟨_, rfl⟩

/-! ## The number of decimal digits -/

theorem decimal_length_bounds (n : Nat) :
    n < 10 ^ (decimal n).length ∧ (n ≠ 0 → 10 ^ ((decimal n).length - 1) ≤ n) := by
  unfold decimal
  by_cases h0 : n = 0
  · subst h0
    simp
  · rw [if_neg h0]
    simp only [List.length_map, List.length_reverse]
    refine ⟨Nat.lt_base_pow_length_digits (by decide), fun _ => ?_⟩
    have h1 := Nat.base_pow_length_digits_le 10 n (by decide) h0
    have hpos : 0 < (Nat.digits 10 n).length := by
      rw [Nat.digits_len 10 n (by decide) h0]
      omega
    obtain ⟨k, hk⟩ : ∃ k, (Nat.digits 10 n).length = k + 1 :=
      ⟨(Nat.digits 10 n).length - 1, by omega⟩
    rw [hk] at h1 ⊢
    rw [pow_succ] at h1
    simp only [Nat.add_sub_cancel]
    omega

theorem decimal_length_digits (n : Nat) (h : n ≠ 0) :
    (decimal n).length = (Nat.digits 10 n).length := by
  unfold decimal
  rw [if_neg h]
  simp

theorem countDigitsIndex32_le (n : Nat) (hn : n < 2 ^ 32) : countDigitsIndex32 n ≤ 9 := by
  obtain ⟨L, hL, _, h2, _, _⟩ := bitlen_spec 32 n (by decide) hn
  unfold countDigitsIndex32
  rw [hL, Nat.shiftRight_eq_div_pow]
  have : L * 1233 / 2 ^ 12 ≤ 9 := by
    norm_num
    omega
  have h3 : L * 1233 / 2 ^ 12 % 2 ^ 32 = L * 1233 / 2 ^ 12 := Nat.mod_eq_of_lt (by omega)
  omega

theorem countDigitsIndex64_le (n : Nat) (hn : n < 2 ^ 64) : countDigitsIndex64 n ≤ 19 := by
  obtain ⟨L, hL, _, h2, _, _⟩ := bitlen_spec 64 n (by decide) hn
  unfold countDigitsIndex64
  rw [hL, Nat.shiftRight_eq_div_pow]
  have : L * 1233 / 2 ^ 12 ≤ 19 := by
    norm_num
    omega
  have h3 : L * 1233 / 2 ^ 12 % 2 ^ 32 = L * 1233 / 2 ^ 12 := Nat.mod_eq_of_lt (by omega)
  omega

/-! ## Scalars inside an array -/

theorem isScalar_type (e : Event) (h : isScalar e = true) :
    (∃ t, e.type = some t) ∧ e.opened = [] := by
  cases e <;> simp [isScalar, Event.type, Event.opened] at h ⊢

theorem Writer.run_scalars (es : List Event) (texts : List (List Byte))
    (hsc : ∀ e ∈ es, isScalar e = true) (htx : es.map Event.ownText = texts.map some)
    (w : Writer) (k : Nat) (rest : List Level) (hst : w.stack_ = ⟨true, k⟩ :: rest) :
    w.run es = some ⟨⟨true, k + es.length⟩ :: rest, w.os_ ++ joinFrom k texts,
      w.seeValue_ || !es.isEmpty⟩ := by
  induction es generalizing texts w k with
  | nil =>
    cases texts with
    | nil =>
      obtain ⟨st, os, sv⟩ := w
      simp only at hst
      subst hst
      simp [Writer.run, joinFrom]
    | cons t ts => simp at htx
  | cons e es ih =>
    cases texts with
    | nil => simp at htx
    | cons t ts =>
      simp only [List.map_cons, List.cons.injEq] at htx
      obtain ⟨⟨ty, hty⟩, hop⟩ := isScalar_type e (hsc e (by simp))
      simp only [Writer.run]
      rw [Writer.handle_eq w e ty hty, Writer.prefix_array w ty k rest hst, htx.1, hop]
      simp only [List.nil_append]
      rw [ih ts (fun e he => hsc e (by simp [he])) htx.2 _ (k + 1) rfl]
      simp [Writer.put, joinFrom, Nat.add_assoc, Nat.add_comm 1]

/-! ## The claims -/

/-- C1: for every value tree `v` whose integers fit their type (and whose
doubles pass the assertion of `Writer::Double`), feeding the depth-first event
sequence of `v` to a fresh `Writer` is accepted in full (no assertion fires),
leaves the context stack empty and leaves in the sink exactly the compact text
of `v`: `{`, the members joined by `,`, each written `"key":value`, `}`; `[`,
the elements joined by `,`, `]`; members and elements in insertion order. -/
theorem C1_value_tree_compact (v : Value) (hv : v.wf) :
    Writer.fresh.run v.events = some ⟨[], v.compact, true⟩ := by
  rw [Value.run_events v hv, Writer.fresh_prefix]
  simp [Writer.put]

theorem C1_value_tree_compact_witness :
    (Value.object [(str "a", .array [.int32 1, .null, .object []]),
        (str "b", .string (str "x"))]).wf ∧
    Writer.fresh.run (Value.object [(str "a", .array [.int32 1, .null, .object []]),
        (str "b", .string (str "x"))]).events
      = some ⟨[], (Value.object [(str "a", .array [.int32 1, .null, .object []]),
        (str "b", .string (str "x"))]).compact, true⟩ :=
  ⟨by simp [Value.wf, Value.wfMembers, Value.wfElems, inRange, UWord.bits],
   C1_value_tree_compact _
    (by simp [Value.wf, Value.wfMembers, Value.wfElems, inRange, UWord.bits])⟩

set_option maxRecDepth 100000 in
/-- C2: for every byte string `s`, `Writer::String(s)` is `prefix` followed by
the put of `"`, then for each byte of `s` in order its escape (`\"`, `\\`,
`\b`, `\f`, `\n`, `\r`, `\t`, `\u00XX` in upper-case hexadecimal for the other
bytes below 0x20, the byte itself otherwise), then `"`; on a fresh `Writer`
that is the whole output.  NUL becomes `\u0000`, and `/`, 0x7F and every byte
from 0x80 to 0xFF pass unchanged. -/
theorem C2_string_escaping (w : Writer) (s : List Byte) :
    w.String s = (w.prefix_ .TYPE_STRING).map
        (fun w1 => w1.put ([0x22] ++ s.flatMap escaped ++ [0x22])) ∧
    Writer.fresh.String s = some ⟨[], [0x22] ++ s.flatMap escaped ++ [0x22], true⟩ ∧
    escaped 0 = str "\\u0000" ∧ escaped 0x1F = str "\\u001F" ∧
    (∀ b : Byte, 0x20 ≤ b.val → b ≠ 0x22 → b ≠ 0x5C → escaped b = [b]) := by
  refine ⟨Writer.String_eq w s, ?_, by decide, by decide, by decide⟩
  rw [Writer.String_eq, Writer.fresh_prefix]
  simp [Writer.put, quoted]

set_option maxRecDepth 100000 in
/-- C3 (the code differs): inside an object, at a key position, `Key` puts the
bytes of the name between two quotes without any escaping, whereas `String`
escapes them.  For the three-byte name made of `a`, a quote and `b`, the sink
holds the six bytes 7B 22 61 22 62 22 after `StartObject, Key` and the seven
bytes 7B 22 61 5C 22 62 22 after `StartObject, String`. -/
theorem C3_key_not_escaped :
    (Writer.fresh.run [.StartObject, .Key [97, 34, 98]]).map (fun w => w.os_)
      = some [123, 34, 97, 34, 98, 34] ∧
    (Writer.fresh.run [.StartObject, .String [97, 34, 98]]).map (fun w => w.os_)
      = some [123, 34, 97, 92, 34, 98, 34] := by
  decide

set_option maxRecDepth 100000 in
/-- C4 (the code differs): the test of `Writer::Double` for a purely integral
rendering accepts digits only, so the rendering `-1` of the double `-1.0`,
which has no fraction point and no exponent, is put as `-1`, without `.0`;
the rendering `1` of `1.0` is put as `1.0`. -/
theorem C4_negative_integral_double :
    Writer.fresh.Double (.finite (str "-1")) = some ⟨[], str "-1", true⟩ ∧
    Writer.fresh.Double (.finite (str "-0")) = some ⟨[], str "-0", true⟩ ∧
    Writer.fresh.Double (.finite (str "1")) = some ⟨[], str "1.0", true⟩ := by
  decide

/-- C5: for every 32-bit signed integer `i`, `Writer::Int32(i)` is `prefix`
followed by the put of the canonical decimal representation of `i`, which on a
fresh `Writer` is the whole output: a `-` exactly when `i < 0`, then the
decimal digits of `|i|`, which are digits only, denote `|i|`, and start with
`0` only for zero, whose representation is the single character `0`. -/
theorem C5_int32_canonical (w : Writer) (i : Int)
    (hlo : -2147483648 ≤ i) (hhi : i ≤ 2147483647) :
    w.Int32 i = (w.prefix_ .TYPE_INT32).map (fun w1 => w1.put (decimalInt i)) ∧
    Writer.fresh.Int32 i = some ⟨[], decimalInt i, true⟩ ∧
    decimalInt i = (if i < 0 then [45] else []) ++ decimal i.natAbs ∧
    (∀ b ∈ decimal i.natAbs, isdigit b = true) ∧
    readDecimal (decimal i.natAbs) = i.natAbs ∧
    ((decimal i.natAbs).head? = some 48 → i = 0) ∧
    decimal 0 = [48] := by
  have h : inRange .u32 i := by
    simp only [inRange, UWord.bits]
    constructor <;> omega
  refine ⟨Writer.Int32_eq w i h, ?_, ?_, decimal_isdigit _, readDecimal_decimal _, ?_, rfl⟩
  · rw [Writer.Int32_eq _ i h, Writer.fresh_prefix]
    simp [Writer.put]
  · unfold decimalInt
    split <;> simp
  · intro hh
    have := decimal_head _ hh
    omega

theorem C5_int32_canonical_witness :
    Writer.fresh.Int32 (-2147483648) = some ⟨[], decimalInt (-2147483648), true⟩ :=
  (C5_int32_canonical Writer.fresh (-2147483648) (by decide) (by decide)).2.1

/-- C6: for every 64-bit signed integer `i`, `Writer::Int64(i)` is `prefix`
followed by the put of the canonical decimal representation of `i`, which on a
fresh `Writer` is the whole output: a `-` exactly when `i < 0`, then the
decimal digits of `|i|` without a leading zero; reading that text back as a
decimal integer gives `i`. -/
theorem C6_int64_canonical (w : Writer) (i : Int)
    (hlo : -9223372036854775808 ≤ i) (hhi : i ≤ 9223372036854775807) :
    w.Int64 i = (w.prefix_ .TYPE_INT64).map (fun w1 => w1.put (decimalInt i)) ∧
    Writer.fresh.Int64 i = some ⟨[], decimalInt i, true⟩ ∧
    decimalInt i = (if i < 0 then [45] else []) ++ decimal i.natAbs ∧
    (∀ b ∈ decimal i.natAbs, isdigit b = true) ∧
    ((decimal i.natAbs).head? = some 48 → i = 0) ∧
    readInt (decimalInt i) = i := by
  have h : inRange .u64 i := by
    simp only [inRange, UWord.bits]
    constructor <;> omega
  refine ⟨Writer.Int64_eq w i h, ?_, ?_, decimal_isdigit _, ?_, readInt_decimalInt i⟩
  · rw [Writer.Int64_eq _ i h, Writer.fresh_prefix]
    simp [Writer.put]
  · unfold decimalInt
    split <;> simp
  · intro hh
    have := decimal_head _ hh
    omega

theorem C6_int64_canonical_witness :
    Writer.fresh.Int64 (-9223372036854775808)
        = some ⟨[], decimalInt (-9223372036854775808), true⟩ ∧
    readInt (decimalInt (-9223372036854775808)) = -9223372036854775808 :=
  ⟨(C6_int64_canonical Writer.fresh (-9223372036854775808) (by decide) (by decide)).2.1,
   (C6_int64_canonical Writer.fresh (-9223372036854775808) (by decide) (by decide)).2.2.2.2.2⟩

/-- C7 as stated fails: with an object on top whose value count is 1,
`EndObject` is accepted, puts `}` with no `:` before it and removes the
context instead of raising its count to 2. -/
theorem C7_counterexample :
    (Writer.mk [⟨false, 1⟩] [123, 34, 97, 34] true).handle .EndObject
      = some ⟨[], [123, 34, 97, 34, 125], true⟩ := by
  decide

/-- C7, amended: in every state whose top context is an object with value
count `k`, every accepted event other than `EndObject` puts, before its own
text, exactly `:` when `k` is odd, exactly `,` when `k` is even and positive,
and nothing when `k = 0`; the count of that context becomes `k + 1`, the
levels below it are unchanged, and a `Start` event pushes its new level on
top of it. -/
theorem C7_object_separator (w w1 : Writer) (k : Nat) (rest : List Level) (e : Event)
    (hst : w.stack_ = ⟨false, k⟩ :: rest) (he : e ≠ .EndObject)
    (hacc : w.handle e = some w1) :
    ∃ txt, e.ownText = some txt ∧
      w1.os_ = w.os_ ++ (if k % 2 = 1 then [58] else if k > 0 then [44] else []) ++ txt ∧
      w1.stack_ = e.opened ++ ⟨false, k + 1⟩ :: rest := by
  cases ht : e.type with
  | none =>
    rcases Event.type_none e ht with rfl | rfl
    · exact absurd rfl he
    · obtain ⟨st, os, sv⟩ := w
      simp only at hst
      subst hst
      simp [Writer.handle, Writer.EndArray] at hacc
  | some t =>
    obtain ⟨w0, txt, hp, ho, rfl⟩ := Writer.handle_typed w w1 e t ht hacc
    rw [Writer.prefix_object w t k rest hst] at hp
    split at hp
    · cases hp
      exact ⟨txt, ho, rfl, rfl⟩
    · cases hp

set_option maxRecDepth 100000 in
theorem C7_object_separator_witness :
    ∃ txt, (Event.Int32 7).ownText = some txt ∧
      [123, 34, 97, 34, 58, 55]
        = [123, 34, 97, 34] ++ (if 1 % 2 = 1 then [58] else if 1 > 0 then [44] else []) ++ txt ∧
      [(⟨false, 2⟩ : Level)] = (Event.Int32 7).opened ++ ⟨false, 1 + 1⟩ :: [] :=
  C7_object_separator ⟨[⟨false, 1⟩], [123, 34, 97, 34], true⟩
    ⟨[⟨false, 2⟩], [123, 34, 97, 34, 58, 55], true⟩ 1 [] (.Int32 7) rfl (by decide) (by decide)

/-- C8: in every state whose top context is an array holding `k` values, every
accepted event that is not an `End` event puts `,` before its own text exactly
when `k > 0` and raises the count to `k + 1`; hence `StartArray`, `n` scalar
events and `EndArray` put `[`, the `n` renderings joined by `,` and `]`
(after the separator the enclosing context asks for), so `[]` for `n = 0`,
with no leading and no trailing comma. -/
theorem C8_array_commas :
    (∀ (w w1 : Writer) (k : Nat) (rest : List Level) (e : Event),
      w.stack_ = ⟨true, k⟩ :: rest → e ≠ .EndArray → w.handle e = some w1 →
      ∃ txt, e.ownText = some txt ∧
        w1.os_ = w.os_ ++ (if k > 0 then [44] else []) ++ txt ∧
        w1.stack_ = e.opened ++ ⟨true, k + 1⟩ :: rest) ∧
    (∀ (w : Writer) (es : List Event) (texts : List (List Byte)),
      (∀ e ∈ es, isScalar e = true) → es.map Event.ownText = texts.map some →
      w.run (.StartArray :: es ++ [.EndArray])
        = (w.prefix_ .TYPE_ARRAY).map
            (fun w1 => w1.put ([91] ++ List.intercalate [44] texts ++ [93]))) ∧
    (∀ (es : List Event) (texts : List (List Byte)),
      (∀ e ∈ es, isScalar e = true) → es.map Event.ownText = texts.map some →
      Writer.fresh.run (.StartArray :: es ++ [.EndArray])
        = some ⟨[], [91] ++ List.intercalate [44] texts ++ [93], true⟩) := by
  have part2 : ∀ (w : Writer) (es : List Event) (texts : List (List Byte)),
      (∀ e ∈ es, isScalar e = true) → es.map Event.ownText = texts.map some →
      w.run (.StartArray :: es ++ [.EndArray])
        = (w.prefix_ .TYPE_ARRAY).map
            (fun w1 => w1.put ([91] ++ List.intercalate [44] texts ++ [93])) := by
    intro w es texts hsc htx
    simp only [Writer.run, Writer.handle, Writer.StartArray, List.cons_append, List.append_eq]
    cases hp : w.prefix_ .TYPE_ARRAY with
    | none => rfl
    | some w0 =>
      have hsv := Writer.prefix_seeValue w w0 _ hp
      obtain ⟨st, os, sv⟩ := w0
      simp only at hsv
      subst hsv
      simp only [Option.map_some']
      rw [Writer.run_append,
        Writer.run_scalars es texts hsc htx (Writer.put ⟨⟨true, 0⟩ :: st, os, true⟩ [91]) 0 st rfl]
      simp only [Option.some_bind, Writer.run_singleton, Writer.handle, Writer.EndArray]
      simp [Writer.put, joinFrom_zero]
  refine ⟨?_, part2, ?_⟩
  · intro w w1 k rest e hst he hacc
    cases ht : e.type with
    | none =>
      rcases Event.type_none e ht with rfl | rfl
      · obtain ⟨st, os, sv⟩ := w
        simp only at hst
        subst hst
        simp [Writer.handle, Writer.EndObject] at hacc
      · exact absurd rfl he
    | some t =>
      obtain ⟨w0, txt, hp, ho, rfl⟩ := Writer.handle_typed w w1 e t ht hacc
      rw [Writer.prefix_array w t k rest hst] at hp
      cases hp
      exact ⟨txt, ho, rfl, rfl⟩
  · intro es texts hsc htx
    rw [part2 Writer.fresh es texts hsc htx, Writer.fresh_prefix]
    simp [Writer.put]

set_option maxRecDepth 100000 in
theorem C8_array_commas_witness :
    Writer.fresh.run (.StartArray :: [.Null, .Bool true, .String [97]] ++ [.EndArray])
      = some ⟨[], [91] ++ List.intercalate [44] [str "null", str "true", str "\"a\""] ++ [93],
          true⟩ :=
  C8_array_commas.2.2 [.Null, .Bool true, .String [97]] [str "null", str "true", str "\"a\""]
    (by decide) (by decide)

set_option maxRecDepth 100000 in
/-- C9 as stated fails: `Key` is accepted as the first call on a fresh
`Writer`, whose context stack is empty, and directly inside an array. -/
theorem C9_counterexample :
    Writer.fresh.Key [97] = some ⟨[], [34, 97, 34], true⟩ ∧
    (Writer.mk [⟨true, 1⟩] [91, 49] true).Key [97]
      = some ⟨[⟨true, 2⟩], [91, 49, 44, 34, 97, 34], true⟩ := by
  decide

/-- C9, amended: with an empty context stack `Key(s)` fails an assertion
exactly when a value has been seen already (the root is not singular); on a
`Writer` that has seen no value it is accepted and puts `"`, `s`, `"`; with an
array on top it is always accepted, puts `,` when the array already holds a
value, then `"`, `s`, `"`, and counts as one more value of the array. -/
theorem C9_key_outside_object (w : Writer) (s : List Byte) :
    (w.stack_ = [] → w.seeValue_ = true → w.Key s = none) ∧
    (w.stack_ = [] → w.seeValue_ = false →
      w.Key s = some ⟨[], w.os_ ++ [34] ++ s ++ [34], true⟩) ∧
    (∀ k rest, w.stack_ = ⟨true, k⟩ :: rest →
      w.Key s = some ⟨⟨true, k + 1⟩ :: rest,
        w.os_ ++ (if k > 0 then [44] else []) ++ [34] ++ s ++ [34], true⟩) := by
  refine ⟨?_, ?_, ?_⟩
  · intro hst hsv
    simp [Writer.Key, Writer.prefix_empty w _ hst, hsv]
  · intro hst hsv
    simp [Writer.Key, Writer.prefix_empty w _ hst, hsv, Writer.put]
  · intro k rest hst
    simp [Writer.Key, Writer.prefix_array w _ k rest hst, Writer.put, arraySep]

theorem C9_key_outside_object_witness :
    (Writer.mk [] [110, 117, 108, 108] true).Key [97] = none ∧
    Writer.fresh.Key [97] = some ⟨[], [] ++ [34] ++ [97] ++ [34], true⟩ :=
  ⟨(C9_key_outside_object ⟨[], [110, 117, 108, 108], true⟩ [97]).1 rfl rfl,
   (C9_key_outside_object Writer.fresh [97]).2.1 rfl rfl⟩

/-- C10: once a fresh `Writer` has accepted a non-empty sequence of events
that leaves the context stack empty (one complete top-level value: a single
scalar, or a `Start` event closed by its `End` event), every further event of
any of the eleven kinds fails an assertion. -/
theorem C10_root_singular (es : List Event) (w : Writer) (hne : es ≠ [])
    (hrun : Writer.fresh.run es = some w) (hst : w.stack_ = []) :
    ∀ e : Event, w.handle e = none := by
  intro e
  apply Writer.handle_after_root w e hst
  cases es with
  | nil => exact absurd rfl hne
  | cons e0 es =>
    simp only [Writer.run] at hrun
    cases h0 : Writer.fresh.handle e0 with
    | none => rw [h0] at hrun; cases hrun
    | some w0 =>
      rw [h0] at hrun
      exact Writer.run_seeValue es w0 w hrun
        (Writer.handle_seeValue Writer.fresh w0 e0 h0 (Or.inr rfl))

set_option maxRecDepth 100000 in
theorem C10_root_singular_witness :
    (Writer.mk [] [91, 49, 93] true).handle .Null = none ∧
    (Writer.mk [] [91, 49, 93] true).handle (.Key [97]) = none ∧
    (Writer.mk [] [91, 49, 93] true).handle .StartObject = none ∧
    (Writer.mk [] [91, 49, 93] true).handle .EndArray = none :=
  ⟨C10_root_singular [.StartArray, .Int32 1, .EndArray] ⟨[], [91, 49, 93], true⟩
      (by decide) (by decide) rfl .Null,
   C10_root_singular [.StartArray, .Int32 1, .EndArray] ⟨[], [91, 49, 93], true⟩
      (by decide) (by decide) rfl (.Key [97]),
   C10_root_singular [.StartArray, .Int32 1, .EndArray] ⟨[], [91, 49, 93], true⟩
      (by decide) (by decide) rfl .StartObject,
   C10_root_singular [.StartArray, .Int32 1, .EndArray] ⟨[], [91, 49, 93], true⟩
      (by decide) (by decide) rfl .EndArray⟩

/-- C11: in every state `EndObject` is accepted exactly when the context stack
is non-empty with an object on top, and `EndArray` exactly when it is
non-empty with an array on top; in every other state the call fails an
assertion.  Hence no prefix of a sequence accepted by a fresh `Writer` holds
more `End` events than `Start` events. -/
theorem C11_end_acceptance :
    (∀ w : Writer, w.EndObject ≠ none ↔ ∃ k rest, w.stack_ = ⟨false, k⟩ :: rest) ∧
    (∀ w : Writer, w.EndArray ≠ none ↔ ∃ k rest, w.stack_ = ⟨true, k⟩ :: rest) ∧
    (∀ (es : List Event) (w : Writer) (n : Nat), Writer.fresh.run es = some w →
      (es.take n).countP isEnd ≤ (es.take n).countP isStart) := by
  refine ⟨?_, ?_, ?_⟩
  · intro w
    obtain ⟨st, os, sv⟩ := w
    cases st with
    | nil => simp [Writer.EndObject]
    | cons top rest =>
      obtain ⟨ia, k⟩ := top
      cases ia <;> simp [Writer.EndObject]
  · intro w
    obtain ⟨st, os, sv⟩ := w
    cases st with
    | nil => simp [Writer.EndArray]
    | cons top rest =>
      obtain ⟨ia, k⟩ := top
      cases ia <;> simp [Writer.EndArray]
  · intro es w n h
    obtain ⟨w2, h2⟩ := Writer.run_take es n Writer.fresh w h
    have := Writer.run_depth (es.take n) Writer.fresh w2 h2
    simp only [Writer.fresh, List.length_nil] at this
    omega

set_option maxRecDepth 100000 in
theorem C11_end_acceptance_witness :
    (List.take 3 [Event.StartArray, .StartObject, .EndObject, .EndArray]).countP isEnd
      ≤ (List.take 3 [Event.StartArray, .StartObject, .EndObject, .EndArray]).countP isStart :=
  C11_end_acceptance.2.2 [.StartArray, .StartObject, .EndObject, .EndArray]
    ⟨[], [91, 123, 125, 93], true⟩ 3 (by decide)

set_option maxRecDepth 100000 in
/-- C13: `Writer::Double` of positive infinity is `prefix` followed by the put
of the bare literal `Infinity`, and of a NaN the put of the bare literal `NaN`:
no quotes, no `.0`, and before them only the separator that `prefix` puts for
the current context.  `StartArray, Double(INFINITY), Double(NAN), Bool(true)`
leaves `[Infinity,NaN,true` in the sink. -/
theorem C13_infinity_nan (w : Writer) :
    w.Double (.inf false) = (w.prefix_ .TYPE_DOUBLE).map (fun w1 => w1.put (str "Infinity")) ∧
    w.Double .nan = (w.prefix_ .TYPE_DOUBLE).map (fun w1 => w1.put (str "NaN")) ∧
    Writer.fresh.Double (.inf false) = some ⟨[], str "Infinity", true⟩ ∧
    Writer.fresh.Double .nan = some ⟨[], str "NaN", true⟩ ∧
    (Writer.fresh.run [.StartArray, .Double (.inf false), .Double .nan, .Bool true]).map
        (fun w1 => w1.os_) = some (str "[Infinity,NaN,true") := by
  refine ⟨?_, ?_, by decide, by decide, by decide⟩
  · simp only [Writer.Double, doubleText]
    cases w.prefix_ .TYPE_DOUBLE <;> rfl
  · simp only [Writer.Double, doubleText]
    cases w.prefix_ .TYPE_DOUBLE <;> rfl

/-- C16: with an object on top at a key position (even value count), `Null`,
`Bool`, `Int32`, `Int64`, `Double`, `StartObject` and `StartArray` fail the
assertion of `prefix`; `String(s)` is accepted, with the same separator and
the same effect on the context stack as `Key(s)`, and puts the same bytes as
`Key(s)` whenever no byte of `s` needs an escape. -/
theorem C16_key_position (w : Writer) (k : Nat) (rest : List Level)
    (hst : w.stack_ = ⟨false, k⟩ :: rest) (hk : k % 2 = 0) :
    w.Null = none ∧ (∀ b, w.Bool b = none) ∧ (∀ i, w.Int32 i = none) ∧
    (∀ i, w.Int64 i = none) ∧ (∀ d, w.Double d = none) ∧
    w.StartObject = none ∧ w.StartArray = none ∧
    (∀ s, w.String s = some ⟨⟨false, k + 1⟩ :: rest,
        w.os_ ++ (if k > 0 then [44] else []) ++ quoted s, true⟩) ∧
    (∀ s, w.Key s = some ⟨⟨false, k + 1⟩ :: rest,
        w.os_ ++ (if k > 0 then [44] else []) ++ ([34] ++ s ++ [34]), true⟩) ∧
    (∀ s, s.flatMap escaped = s → w.String s = w.Key s) := by
  have hodd : ¬ (k % 2 = 1) := by omega
  have hsep : objectSep k = if k > 0 then [44] else [] := by
    unfold objectSep
    rw [if_neg hodd]
  have hfail : ∀ t, t ≠ ValueType.TYPE_STRING → w.prefix_ t = none := by
    intro t ht
    rw [Writer.prefix_object w t k rest hst]
    simp [hodd, ht]
  have hstr : w.prefix_ .TYPE_STRING
      = some ⟨⟨false, k + 1⟩ :: rest, w.os_ ++ (if k > 0 then [44] else []), true⟩ := by
    rw [Writer.prefix_object w _ k rest hst, ← hsep]
    simp
  have hS : ∀ s, w.String s = some ⟨⟨false, k + 1⟩ :: rest,
        w.os_ ++ (if k > 0 then [44] else []) ++ quoted s, true⟩ := by
    intro s
    rw [Writer.String_eq, hstr]
    rfl
  have hK : ∀ s, w.Key s = some ⟨⟨false, k + 1⟩ :: rest,
        w.os_ ++ (if k > 0 then [44] else []) ++ ([34] ++ s ++ [34]), true⟩ := by
    intro s
    simp only [Writer.Key, hstr, Option.map_some', Writer.put]
    simp
  refine ⟨?_, ?_, ?_, ?_, ?_, ?_, ?_, hS, hK, ?_⟩
  · simp [Writer.Null, hfail]
  · intro b; simp [Writer.Bool, hfail]
  · intro i; simp [Writer.Int32, hfail]
  · intro i; simp [Writer.Int64, hfail]
  · intro d; simp [Writer.Double, hfail]
  · simp [Writer.StartObject, hfail]
  · simp [Writer.StartArray, hfail]
  · intro s hs
    rw [hS, hK]
    simp [quoted, hs]

theorem C16_key_position_witness :
    (Writer.mk [⟨false, 2⟩] [123, 34, 97, 34, 58, 49] true).Null = none ∧
    (Writer.mk [⟨false, 2⟩] [123, 34, 97, 34, 58, 49] true).String [98]
      = some ⟨[⟨false, 2 + 1⟩],
          [123, 34, 97, 34, 58, 49] ++ (if 2 > 0 then [44] else []) ++ quoted [98], true⟩ :=
  ⟨(C16_key_position ⟨[⟨false, 2⟩], [123, 34, 97, 34, 58, 49], true⟩ 2 [] rfl rfl).1,
   (C16_key_position ⟨[⟨false, 2⟩], [123, 34, 97, 34, 58, 49], true⟩ 2 [] rfl
      rfl).2.2.2.2.2.2.2.1 [98]⟩

set_option maxRecDepth 100000 in
/-- C17: with an object on top `EndObject` is accepted whatever the value count
of that context is, odd counts included: it removes the context and puts `}`.
On a fresh `Writer` the sequence `StartObject, Key("a"), EndObject` is accepted
in full, empties the stack and leaves the five bytes 7B 22 61 22 7D. -/
theorem C17_end_object_any_count :
    (∀ (w : Writer) (k : Nat) (rest : List Level), w.stack_ = ⟨false, k⟩ :: rest →
      w.EndObject = some ⟨rest, w.os_ ++ [125], w.seeValue_⟩) ∧
    Writer.fresh.run [.StartObject, .Key [97], .EndObject]
      = some ⟨[], [123, 34, 97, 34, 125], true⟩ := by
  refine ⟨?_, by decide⟩
  intro w k rest hst
  obtain ⟨st, os, sv⟩ := w
  simp only at hst
  subst hst
  simp [Writer.EndObject, Writer.put]

theorem C17_end_object_any_count_witness :
    (Writer.mk [⟨false, 1⟩] [123, 34, 97, 34] true).EndObject
      = some ⟨[], [123, 34, 97, 34] ++ [125], true⟩ :=
  C17_end_object_any_count.1 ⟨[⟨false, 1⟩], [123, 34, 97, 34], true⟩ 1 [] rfl

/-- C19: for every integer `i` of the 32-bit signed range, `detail::itoa` at
`int64_t` (on the 20-byte buffer) and at `int32_t` (on the 11-byte buffer)
return the same length and write the same characters, the canonical decimal
representation of `i`; `Writer::Int64(i)` and `Writer::Int32(i)` therefore
have the same result in every state. -/
theorem C19_int64_agrees_with_int32 (i : Int)
    (hlo : -2147483648 ≤ i) (hhi : i ≤ 2147483647) :
    (∃ b64 b32 n, itoa .u64 i (Buf.fresh 20) = some (b64, n) ∧
      itoa .u32 i (Buf.fresh 11) = some (b32, n) ∧
      b64.take n = b32.take n ∧ b32.take n = (decimalInt i).map some) ∧
    int64Text i = int32Text i ∧
    (∀ w : Writer, w.Int64 i = w.Int32 i) := by
  have h32 : inRange .u32 i := by
    simp only [inRange, UWord.bits]
    constructor <;> omega
  have h64 : inRange .u64 i := by
    simp only [inRange, UWord.bits]
    constructor <;> omega
  refine ⟨?_, ?_, ?_⟩
  · refine ⟨_, _, _, itoa_spec .u64 i h64 20 (decimalInt_length_le .u64 i h64),
      itoa_spec .u32 i h32 11 (decimalInt_length_le .u32 i h32), ?_, ?_⟩
    · rw [List.take_left' (by simp), List.take_left' (by simp)]
    · rw [List.take_left' (by simp)]
  · rw [int64Text_eq i h64, int32Text_eq i h32]
  · intro w
    rw [Writer.Int64_eq w i h64, Writer.Int32_eq w i h32,
      Writer.prefix_congr w .TYPE_INT64 .TYPE_INT32 (by decide) (by decide)]

theorem C19_int64_agrees_with_int32_witness :
    int64Text (-2147483648) = int32Text (-2147483648) :=
  (C19_int64_agrees_with_int32 (-2147483648) (by decide) (by decide)).2.1

/-- C20: for every integer `v` of the signed type (`int32_t` with the 11-byte
buffer, `int64_t` with the 20-byte buffer) `detail::itoa` returns a length `n`
with `1 ≤ n` and `n` at most the buffer size, writes the cells `0` to `n - 1`
and leaves every other cell untouched; run on a buffer of exactly `n` cells it
still succeeds, so no index it computes, `next - 1` included, leaves
`0 .. n - 1`.  The negation `~u + 1` gives `|v|`, also for the least value of
the type. -/
theorem C20_itoa_buffer_safety (T : UWord) (v : Int) (hv : inRange T v) :
    (∃ (text : List Byte), 1 ≤ text.length ∧ text.length ≤ T.bufSize ∧
      itoa T v (Buf.fresh T.bufSize)
        = some (text.map some ++ List.replicate (T.bufSize - text.length) none, text.length) ∧
      itoa T v (Buf.fresh text.length) = some (text.map some, text.length)) ∧
    (v < 0 →
      ((2 ^ T.bits - 1 - (v % 2 ^ T.bits).toNat) + 1) % 2 ^ T.bits = v.natAbs) := by
  have hle : (decimalInt v).length ≤ T.bufSize := by
    have := decimalInt_length_le T v hv
    cases T <;> exact this
  refine ⟨⟨decimalInt v, ?_, hle, itoa_spec T v hv T.bufSize hle, ?_⟩,
    (itoa_unsigned T v hv).2.1⟩
  · have := decimal_length_pos v.natAbs
    unfold decimalInt
    split
    · simp
    · exact this
  · have := itoa_spec T v hv (decimalInt v).length (le_refl _)
    simpa using this

theorem C20_itoa_buffer_safety_witness :
    (∃ (text : List Byte), 1 ≤ text.length ∧ text.length ≤ UWord.u32.bufSize ∧
      itoa .u32 (-2147483648) (Buf.fresh UWord.u32.bufSize)
        = some (text.map some ++ List.replicate (UWord.u32.bufSize - text.length) none,
            text.length) ∧
      itoa .u32 (-2147483648) (Buf.fresh text.length) = some (text.map some, text.length)) ∧
    ((-2147483648 : Int) < 0 →
      ((2 ^ UWord.u32.bits - 1 - ((-2147483648 : Int) % 2 ^ UWord.u32.bits).toNat) + 1)
        % 2 ^ UWord.u32.bits = (-2147483648 : Int).natAbs) :=
  C20_itoa_buffer_safety .u32 (-2147483648) (by decide)

/-- C18: after every event sequence accepted by a fresh `Writer` the context
stack is, level by level, the list of the containers still open: the depth is
the number of `Start` events minus the number of `End` events, a level is an
array exactly when `StartArray` opened it, and its `valueCount` is the number
of events accepted directly inside the container since it was opened, where
`Key`, scalar and nested `Start` events count once and `End` events and events
inside nested containers do not. -/
theorem C18_stack_invariant (es : List Event) (w : Writer)
    (hrun : Writer.fresh.run es = some w) :
    w.stack_ = (track es).map OpenContext.level ∧
    w.stack_.length + es.countP isEnd = es.countP isStart ∧
    (∀ c ∈ track es, isStart c.opener = true ∧ ∀ e ∈ c.direct, isEnd e = false) := by
  refine ⟨Writer.run_track es Writer.fresh w [] hrun rfl, ?_, ?_⟩
  · have := Writer.run_depth es Writer.fresh w hrun
    simpa [Writer.fresh] using this
  · exact foldl_trackStep_sound es [] (by intro c hc; cases hc)

set_option maxRecDepth 100000 in
theorem C18_stack_invariant_witness :
    [(⟨true, 1⟩ : Level), ⟨false, 4⟩, ⟨true, 2⟩]
      = (track [.StartArray, .Null, .StartObject, .Key [97], .StartArray, .EndArray,
          .Key [98], .StartArray, .Int32 7]).map OpenContext.level ∧
    track [.StartArray, .Null, .StartObject, .Key [97], .StartArray, .EndArray,
          .Key [98], .StartArray, .Int32 7]
      = [⟨.StartArray, [.Int32 7]⟩, ⟨.StartObject, [.Key [97], .StartArray, .Key [98], .StartArray]⟩,
         ⟨.StartArray, [.Null, .StartObject]⟩] :=
  ⟨(C18_stack_invariant [.StartArray, .Null, .StartObject, .Key [97], .StartArray, .EndArray,
      .Key [98], .StartArray, .Int32 7]
      ⟨[⟨true, 1⟩, ⟨false, 4⟩, ⟨true, 2⟩],
        str "[null," ++ [123] ++ str "\"a\":[],\"b\":[7", true⟩ (by decide)).1,
   by decide⟩

/-- C12: `Writer::String` is round-trip safe.  For every byte string `s` the
text put between the two quotes decodes, by standard JSON string unescaping,
to exactly `s`, and the decoder started right after the opening quote stops
at the closing quote that the `Writer` puts, whatever follows it, so the body
holds no quote outside a backslash escape; the body holds no byte below 0x20;
and two strings for which `String` puts the same text are equal. -/
theorem C12_string_round_trip (s : List Byte) :
    ∃ body : List Byte,
      Writer.fresh.String s = some ⟨[], [0x22] ++ body ++ [0x22], true⟩ ∧
      unescape body = some s ∧
      (∀ rest, parseStringBody (body ++ 0x22 :: rest) = .ok (s, rest)) ∧
      (∀ c ∈ body, 0x20 ≤ c.val) ∧
      (∀ t, Writer.fresh.String t = Writer.fresh.String s → t = s) := by
  have hfresh : ∀ t : List Byte,
      Writer.fresh.String t = some ⟨[], [0x22] ++ t.flatMap escaped ++ [0x22], true⟩ := by
    intro t
    rw [Writer.String_eq, Writer.fresh_prefix]
    simp [Writer.put, quoted]
  refine ⟨s.flatMap escaped, hfresh s, unescape_body s, parseStringBody_body s,
    body_no_control s, ?_⟩
  intro t ht
  rw [hfresh t, hfresh s] at ht
  simp only [Option.some.injEq, Writer.mk.injEq, List.append_cancel_right_eq,
    List.append_cancel_left_eq, true_and, and_true] at ht
  have h1 := unescape_body t
  rw [ht, unescape_body s] at h1
  exact (Option.some.inj h1).symm

set_option maxRecDepth 100000 in
/-- C14 (the code differs): the `Double` value `-1.0`, whose rendering is `-1`,
is serialised by the `Writer` as `-1`; read back, that literal is integral and
fits 32 bits, so the Reader delivers `Int32(-1)`: the type tag of the value is
not preserved.  The `Int32` value `-1` gives the same text. -/
theorem C14_negative_double_round_trip (strtod : List Byte → DoubleArg) :
    (Writer.fresh.run (Value.double (.finite (str "-1"))).events).map (fun w => w.os_)
      = some (str "-1") ∧
    Reader.parse strtod (str "-1") = some (.PARSE_OK, [.Int32 (-1)]) ∧
    (Writer.fresh.run (Value.int32 (-1)).events).map (fun w => w.os_) = some (str "-1") := by
  refine ⟨by decide, by rfl, by decide⟩

/-- C15: whenever the Reader completes the root value of an input and what
follows it is not only whitespace, `Document::parse` returns
`ROOT_NOT_SINGULAR`; in particular for `01`, where the root value is the
number `0`, and for `null false`.  `Document::parse` returns a status for
every input. -/
theorem C15_root_not_singular (strtod : List Byte → DoubleArg) (text rest : List Byte)
    (evs : List Event)
    (hroot : parseValue strtod (2 * text.length + 2) (skipWhitespace text)
      = some (.PARSE_OK, evs, rest))
    (hmore : skipWhitespace rest ≠ []) :
    Document.parse strtod text = some .PARSE_ROOT_NOT_SINGULAR ∧
    Document.parse strtod (str "01") = some .PARSE_ROOT_NOT_SINGULAR ∧
    Document.parse strtod (str "null false") = some .PARSE_ROOT_NOT_SINGULAR ∧
    (∀ input : List Byte, ∃ status, Document.parse strtod input = some status) := by
  refine ⟨?_, by rfl, by rfl, ?_⟩
  · have hne : skipWhitespace text ≠ [] := by
      intro h
      rw [h] at hroot
      simp [parseValue] at hroot
    simp [Document.parse, Reader.parse, hne, hroot, hmore]
  · intro input
    obtain ⟨r, hr⟩ := Reader.parse_isSome strtod input
    exact ⟨r.1, by simp [Document.parse, hr]⟩

set_option maxRecDepth 100000 in
theorem C15_root_not_singular_witness :
    Document.parse (fun _ => DoubleArg.nan) (str "[1] ,") = some .PARSE_ROOT_NOT_SINGULAR ∧
    Document.parse (fun _ => DoubleArg.nan) (str "01") = some .PARSE_ROOT_NOT_SINGULAR ∧
    Document.parse (fun _ => DoubleArg.nan) (str "null false")
      = some .PARSE_ROOT_NOT_SINGULAR :=
  ⟨(C15_root_not_singular (fun _ => DoubleArg.nan) (str "[1] ,") (str " ,")
      [.StartArray, .Int32 1, .EndArray] (by decide) (by decide)).1,
   (C15_root_not_singular (fun _ => DoubleArg.nan) (str "[1] ,") (str " ,")
      [.StartArray, .Int32 1, .EndArray] (by decide) (by decide)).2.1,
   (C15_root_not_singular (fun _ => DoubleArg.nan) (str "[1] ,") (str " ,")
      [.StartArray, .Int32 1, .EndArray] (by decide) (by decide)).2.2.1⟩

/-- C21: `Writer::Double` has the same result for negative infinity as for
positive infinity in every state: `prefix`, then the put of `Infinity`; the
sign of an infinite double is not put, so on a fresh `Writer` both leave the
eight characters `Infinity`. -/
theorem C21_infinity_sign_dropped (w : Writer) :
    w.Double (.inf true) = w.Double (.inf false) ∧
    w.Double (.inf true) = (w.prefix_ .TYPE_DOUBLE).map (fun w1 => w1.put (str "Infinity")) ∧
    Writer.fresh.Double (.inf true) = some ⟨[], str "Infinity", true⟩ ∧
    Writer.fresh.Double (.inf false) = some ⟨[], str "Infinity", true⟩ := by
  refine ⟨rfl, ?_, by decide, by decide⟩
  simp only [Writer.Double, doubleText]
  cases w.prefix_ .TYPE_DOUBLE <;> rfl

/-- C22: for every 64-bit unsigned `n`, `countDigits(uint64_t n)` reads its
table in bounds, at an index `t` between 0 and 19, and returns the number `d`
of decimal digits of `n`: the length of the decimal representation, with
`n < 10 ^ d` and, unless `n = 0`, `10 ^ (d - 1) ≤ n`; it returns 1 for `n = 0`
and 20 for `n ≥ 10 ^ 19`. -/
theorem C22_countDigits64 (n : Nat) (hn : n < 2 ^ 64) :
    countDigitsIndex64 n ≤ 19 ∧
    (∃ p, powers_of_10_64[countDigitsIndex64 n]? = some p) ∧
    countDigits64 n = some (decimal n).length ∧
    (n ≠ 0 → (decimal n).length = (Nat.digits 10 n).length) ∧
    n < 10 ^ (decimal n).length ∧
    (n ≠ 0 → 10 ^ ((decimal n).length - 1) ≤ n) ∧
    (n = 0 → countDigits64 n = some 1) ∧
    (10 ^ 19 ≤ n → countDigits64 n = some 20) := by
  have hidx := countDigitsIndex64_le n hn
  have hb := decimal_length_bounds n
  refine ⟨hidx, ?_, countDigits64_eq n hn, decimal_length_digits n, hb.1, hb.2, ?_, ?_⟩
  · have hlt : countDigitsIndex64 n < powers_of_10_64.length := by
      simp only [powers_of_10_64, List.length_cons, List.length_nil]
      omega
    exact ⟨_, List.getElem?_eq_getElem hlt⟩
  · intro h0
    rw [countDigits64_eq n hn, h0]
    rfl
  · intro h19
    rw [countDigits64_eq n hn, decimal_length_eq n 19 (Or.inr h19) (by omega)]

theorem C22_countDigits64_witness :
    countDigitsIndex64 18446744073709551615 ≤ 19 ∧
    countDigits64 18446744073709551615 = some 20 :=
  ⟨(C22_countDigits64 18446744073709551615 (by decide)).1,
   (C22_countDigits64 18446744073709551615 (by decide)).2.2.2.2.2.2.2 (by decide)⟩

/-- C23: for every 32-bit unsigned `n`, `countDigits(uint32_t n)` reads its
table in bounds, at an index `t` between 0 and 9, and returns the number `d`
of decimal digits of `n`: the length of the decimal representation, with
`n < 10 ^ d` and, unless `n = 0`, `10 ^ (d - 1) ≤ n`; it returns 1 for `n = 0`
and 10 for `n ≥ 10 ^ 9`. -/
theorem C23_countDigits32 (n : Nat) (hn : n < 2 ^ 32) :
    countDigitsIndex32 n ≤ 9 ∧
    (∃ p, powers_of_10_32[countDigitsIndex32 n]? = some p) ∧
    countDigits32 n = some (decimal n).length ∧
    (n ≠ 0 → (decimal n).length = (Nat.digits 10 n).length) ∧
    n < 10 ^ (decimal n).length ∧
    (n ≠ 0 → 10 ^ ((decimal n).length - 1) ≤ n) ∧
    (n = 0 → countDigits32 n = some 1) ∧
    (10 ^ 9 ≤ n → countDigits32 n = some 10) := by
  have hidx := countDigitsIndex32_le n hn
  have hb := decimal_length_bounds n
  refine ⟨hidx, ?_, countDigits32_eq n hn, decimal_length_digits n, hb.1, hb.2, ?_, ?_⟩
  · have hlt : countDigitsIndex32 n < powers_of_10_32.length := by
      simp only [powers_of_10_32, List.length_cons, List.length_nil]
      omega
    exact ⟨_, List.getElem?_eq_getElem hlt⟩
  · intro h0
    rw [countDigits32_eq n hn, h0]
    rfl
  · intro h9
    rw [countDigits32_eq n hn, decimal_length_eq n 9 (Or.inr h9) (by omega)]

theorem C23_countDigits32_witness :
    countDigitsIndex32 4294967295 ≤ 9 ∧
    countDigits32 4294967295 = some 10 :=
  ⟨(C23_countDigits32 4294967295 (by decide)).1,
   (C23_countDigits32 4294967295 (by decide)).2.2.2.2.2.2.2 (by decide)⟩

end json
